import Mathlib

/-!
Verification development for the configuration engine in `src/node/cli.ts`
(schema-driven CLI/config parsing, bind-address resolution, defaults
resolution, existing-instance detection).

The TypeScript code is embedded shallowly:

* A parsed configuration record (`Args` in the source, a JavaScript object)
  is modelled as an insertion-ordered association list `Args` from option
  names to typed values (`OptValue`).  The positional-argument list `_` is an
  ordinary entry, initialised first, exactly as `const args: Args = { _: [] }`
  does in the source.  Property lookup ignores the prototype chain.
* JavaScript strings are Lean `String`s; `parseInt(v, 10)` is `jsParseInt`;
  `"--k=v".split("=", 2)` (which truncates, discarding everything after the
  second piece) is `splitEq2`.
* `process.env` reads are threaded in as explicit parameters.
* External collaborators (node's `path.resolve`, the filesystem, the socket
  probe `canConnect` from `./util`, YAML text parsing) are parameters of the
  embedded functions or modelled at the value level, as noted at each use.
-/

set_option maxRecDepth 4000

/-- A value stored in a configuration record.  The source stores booleans,
strings, base-10 integers (`number`), string lists and `OptionalString`
instances; an `OptionalString` wraps an optional payload, so absent /
present-without-payload / present-with-payload are all distinguishable. -/
inductive OptValue where
  | bool (b : Bool)
  | str (s : String)
  | num (n : Int)
  | strList (l : List String)
  | optStr (v : Option String)
deriving DecidableEq

/-- A configuration record (`Args` in the source): a JavaScript object,
modelled as an insertion-ordered association list with unique keys. -/
abbrev Args := List (String × OptValue)

/-- Decidable equality of parse results, so concrete runs can be checked by
`decide`. -/
instance instDecEqExcept {e a : Type} [DecidableEq e] [DecidableEq a] :
    DecidableEq (Except e a)
  | .ok x, .ok y =>
    if h : x = y then .isTrue (by rw [h]) else .isFalse fun he => h (Except.ok.inj he)
  | .error x, .error y =>
    if h : x = y then .isTrue (by rw [h]) else .isFalse fun he => h (Except.error.inj he)
  | .ok _, .error _ => .isFalse fun he => Except.noConfusion he
  | .error _, .ok _ => .isFalse fun he => Except.noConfusion he

/-- Association-list lookup (JavaScript own-property read). -/
def assocLookup {α : Type} : List (String × α) → String → Option α
  | [], _ => none
  | (k', v) :: rest, k => if k' = k then some v else assocLookup rest k

/-- `args[key]` as an own-property read. -/
def jsGet (a : Args) (k : String) : Option OptValue := assocLookup a k

/-- `args[key] = v`: replaces the value in place when the key is present,
otherwise appends the key at the end — JavaScript object assignment keeps the
original insertion position of an existing key. -/
def jsSet : Args → String → OptValue → Args
  | [], k, v => [(k, v)]
  | (k', v') :: rest, k, v =>
    if k' = k then (k', v) :: rest else (k', v') :: jsSet rest k v

/-- JavaScript truthiness of a stored value: `false`, `""` and `0` are falsy,
arrays and `OptionalString` objects are always truthy. -/
def jsTruthy : OptValue → Bool
  | .bool b => b
  | .str s => decide (s ≠ "")
  | .num n => decide (n ≠ 0)
  | .strList _ => true
  | .optStr _ => true

/-- `if (args[k]) ...`: the key is present and its value is truthy. -/
def argTruthy (a : Args) (k : String) : Bool :=
  match jsGet a k with
  | some v => jsTruthy v
  | none => false

/-- The stored list for a string-list option, `[]` when the key is absent
(the source initialises the array on first use: `if (!args[key]) args[key] = []`). -/
def jsGetList (a : Args) (k : String) : List String :=
  match jsGet a k with
  | some (.strList l) => l
  | _ => []

/-- `args._.push(arg)`. -/
def pushPos (a : Args) (s : String) : Args :=
  jsSet a "_" (.strList (jsGetList a "_" ++ [s]))

/-- `s.startsWith("-")`. -/
def headDash (s : String) : Bool :=
  decide (s.data.head? = some '-')

/-- The longest prefix not containing `'='` (one piece of a JavaScript
`split("=")`). -/
def takeNonEq : List Char → List Char
  | [] => []
  | c :: rest => if c = '=' then [] else c :: takeNonEq rest

/-- `s.split("=", 2)` on the characters of `s`: the first piece, and — when a
`'='` occurs — the second piece.  JavaScript's `limit` argument truncates, so
everything from the second `'='` on is discarded (`"a=b=c".split("=", 2)`
is `["a", "b"]`). -/
def splitEq2 : List Char → List Char × Option (List Char)
  | [] => ([], none)
  | c :: rest =>
    if c = '=' then ([], some (takeNonEq rest))
    else
      let p := splitEq2 rest
      (c :: p.1, p.2)

/-- Numeric value of a digit character. -/
def digitVal (c : Char) : Nat := c.toNat - 48

/-- Value of a big-endian list of decimal digit characters. -/
def decimalValue (cs : List Char) : Nat :=
  cs.foldl (fun a c => a * 10 + digitVal c) 0

/-- `parseInt(s, 10)`: skip leading whitespace, read an optional sign and then
the longest prefix of decimal digits; `NaN` (here `none`) when no digit
follows.  Trailing garbage is ignored, exactly as in JavaScript. -/
def jsParseInt (s : String) : Option Int :=
  match s.data.dropWhile Char.isWhitespace with
  | '-' :: rest =>
    let ds := rest.takeWhile Char.isDigit
    if ds = [] then none else some (-(decimalValue ds : Int))
  | '+' :: rest =>
    let ds := rest.takeWhile Char.isDigit
    if ds = [] then none else some ((decimalValue ds : Int))
  | rest =>
    let ds := rest.takeWhile Char.isDigit
    if ds = [] then none else some ((decimalValue ds : Int))

/-- The decimal digit character for `n % 10`-style values (`n < 10`). -/
def digitChar : Nat → Char
  | 0 => '0' | 1 => '1' | 2 => '2' | 3 => '3' | 4 => '4'
  | 5 => '5' | 6 => '6' | 7 => '7' | 8 => '8' | _ => '9'

/-- Big-endian decimal digits of `n`, with explicit fuel (the fuel is always
sufficient at `natDigits` below, where it is `n` itself). -/
def natDigitsGo : Nat → Nat → List Char
  | 0, n => [digitChar n]
  | fuel + 1, n =>
    if n < 10 then [digitChar n]
    else natDigitsGo fuel (n / 10) ++ [digitChar (n % 10)]

/-- Big-endian decimal digits of `n`. -/
def natDigits (n : Nat) : List Char := natDigitsGo n n

/-- Decimal rendering of an integer (JavaScript number-to-string for the
integral values this engine stores). -/
def intToStr (n : Int) : String :=
  if n < 0 then ⟨'-' :: natDigits (-n).toNat⟩ else ⟨natDigits n.toNat⟩

/-- Decimal rendering of a natural number. -/
def natToStr (n : Nat) : String := ⟨natDigits n⟩

/-- The value kind of an option in the schema: `"boolean"`, `"string"`,
`"string[]"`, `"number"`, `OptionalString`, or an enumeration object whose
accepted values are `Object.values` of the enum. -/
inductive OptKind where
  | boolean
  | str
  | strList
  | number
  | optionalString
  | enum (values : List String)
deriving DecidableEq

/-- One entry of the option schema: value kind, optional short flag, and
whether the value is a path to be resolved before storing.  The description
and beta-visibility metadata only feed the help text, which no claim touches,
so they are omitted. -/
structure OptionSpec where
  kind : OptKind
  short : Option String
  isPath : Bool
deriving DecidableEq

/-- `Object.values(LogLevel)`, in declaration order. -/
def logLevelValues : List String := ["trace", "debug", "info", "warn", "error"]

/-- Modelled from the spec: `AuthType` is imported from `./http`, which is not
part of the surveyed source; the spec describes password-based authentication
with a `password`/`none` choice.  No claim depends on the exact value set,
only on enum membership being checked. -/
def authValues : List String := ["password", "none"]

/-- The option catalog `options`, in source declaration order. -/
def optionsCatalog : List (String × OptionSpec) := [
  ("auth", ⟨.enum authValues, none, false⟩),
  ("password", ⟨.str, none, false⟩),
  ("cert", ⟨.optionalString, none, true⟩),
  ("cert-host", ⟨.str, none, false⟩),
  ("cert-key", ⟨.str, none, true⟩),
  ("disable-telemetry", ⟨.boolean, none, false⟩),
  ("help", ⟨.boolean, some "h", false⟩),
  ("json", ⟨.boolean, none, false⟩),
  ("open", ⟨.boolean, none, false⟩),
  ("bind-addr", ⟨.str, none, false⟩),
  ("config", ⟨.str, none, false⟩),
  ("host", ⟨.str, none, false⟩),
  ("port", ⟨.number, none, false⟩),
  ("socket", ⟨.str, none, true⟩),
  ("version", ⟨.boolean, some "v", false⟩),
  ("_", ⟨.strList, none, false⟩),
  ("user-data-dir", ⟨.str, none, true⟩),
  ("extensions-dir", ⟨.str, none, true⟩),
  ("builtin-extensions-dir", ⟨.str, none, true⟩),
  ("extra-extensions-dir", ⟨.strList, none, true⟩),
  ("extra-builtin-extensions-dir", ⟨.strList, none, true⟩),
  ("list-extensions", ⟨.boolean, none, false⟩),
  ("force", ⟨.boolean, none, false⟩),
  ("install-extension", ⟨.strList, none, false⟩),
  ("enable-proposed-api", ⟨.strList, none, false⟩),
  ("uninstall-extension", ⟨.strList, none, false⟩),
  ("show-versions", ⟨.boolean, none, false⟩),
  ("proxy-domain", ⟨.strList, none, false⟩),
  ("new-window", ⟨.boolean, some "n", false⟩),
  ("reuse-window", ⟨.boolean, some "r", false⟩),
  ("locale", ⟨.str, none, false⟩),
  ("log", ⟨.enum logLevelValues, none, false⟩),
  ("verbose", ⟨.boolean, some "vvv", false⟩),
  ("link", ⟨.optionalString, none, false⟩)]

/-- `options[key]` as an own-property read of the catalog. -/
def lookupOption (k : String) : Option OptionSpec := assocLookup optionsCatalog k

/-- `Object.entries(options).find(([, v]) => v.short === short)`, returning
the matching long name. -/
def lookupShort (s : String) : Option String :=
  match optionsCatalog.find? (fun p => decide (p.2.short = some s)) with
  | some p => some p.1
  | none => none

/-- The parse-time error taxonomy.  The source throws `Error` objects whose
messages distinguish these cases (and, from a config file, prefix the config
path); only the case, not the message text, is modelled. -/
inductive ParseError where
  | unknownOption (arg : String)
  | passwordOutsideConfig
  | missingValue (key : String)
  | invalidNumber (key : String)
  | invalidEnumValue (key : String)
deriving DecidableEq

/-- Lines 290–324 of the source: storing a captured, truthy (non-empty) value
`v` for a non-boolean option: the `OptionalString`-with-`"false"` skip, path
resolution, then the per-kind coercion switch.  `resolve` is node's
`path.resolve`, an external collaborator passed in explicitly. -/
def storeTyped (key : String) (spec : OptionSpec) (v : String) (args : Args) :
    Except ParseError Args :=
  match spec.kind with
  | .boolean => .ok (jsSet args key (.bool true))
  | .str => .ok (jsSet args key (.str v))
  | .strList => .ok (jsSet args key (.strList (jsGetList args key ++ [v])))
  | .number =>
    match jsParseInt v with
    | some n => .ok (jsSet args key (.num n))
    | none => .error (.invalidNumber key)
  | .optionalString => .ok (jsSet args key (.optStr (some v)))
  | .enum values =>
    if v ∈ values then .ok (jsSet args key (.str v))
    else .error (.invalidEnumValue key)

/-- See `storeTyped` for the coercion switch; this adds the `OptionalString`
`"false"` skip and path resolution, in source order. -/
def storeValued (resolve : String → String) (key : String) (spec : OptionSpec)
    (v : String) (args : Args) : Except ParseError Args :=
  if spec.kind = .optionalString ∧ v = "false" then .ok args
  else storeTyped key spec (if spec.isPath then resolve v else v) args

/-- Lines 283–288 of the source: the captured value is falsy (`undefined` from
no token, or `""` from an inline `--key=`).  An `OptionalString` option stores
the marker `new OptionalString(value)` (keeping `""` distinct from absence of
a payload); every other non-boolean option fails with the missing-value
error. -/
def absentValue (key : String) (spec : OptionSpec) (v : Option String)
    (args : Args) : Except ParseError Args :=
  if spec.kind = .optionalString then .ok (jsSet args key (.optStr v))
  else .error (.missingValue key)

/-- Value capture and storage for a non-boolean option (lines 277–324): when
no inline value is present, the next token is consumed as the value only if
it exists, is truthy, and does not look like an option; a falsy value goes to
`absentValue`, a truthy one to `storeValued`.  Returns the updated record and
the tokens still to be processed. -/
def handleValued (resolve : String → String) (key : String) (spec : OptionSpec)
    (value? : Option String) (rest : List String) (args : Args) :
    Except ParseError (Args × List String) :=
  match value? with
  | some v =>
    if v = "" then (absentValue key spec (some "") args).map (fun a => (a, rest))
    else (storeValued resolve key spec v args).map (fun a => (a, rest))
  | none =>
    match rest with
    | next :: rest2 =>
      if next ≠ "" ∧ headDash next = false then
        (storeValued resolve key spec next args).map (fun a => (a, rest2))
      else (absentValue key spec none args).map (fun a => (a, rest))
    | [] => (absentValue key spec none args).map (fun a => (a, rest))

/-- The token loop of `parse` (lines 238–331).  `ended` is the
positional-only flag set by a literal `--`.  A long token is stripped of its
`--` and split on the first `=`; a short token strips one `-` and resolves
through the short-flag scan.  The loop consumes one or two tokens per step;
`fuel` makes the recursion structural (and hence kernel-evaluable) and is
irrelevant whenever `toks.length ≤ fuel`, which `parse` guarantees.
The key/value extraction of an option token lives in `tokenKeyValue`. -/
def tokenKeyValue (arg : String) : Option String × Option String :=
  let tl := arg.data.tail
  if tl.head? = some '-' then
    let p := splitEq2 tl.tail
    (some ⟨p.1⟩, p.2.map fun l => ⟨l⟩)
  else (lookupShort ⟨tl⟩, none)

def parseLoop (resolve : String → String) (cfg : Bool) :
    Nat → List String → Bool → Args → Except ParseError Args
  | _, [], _, args => .ok args
  | 0, _ :: _, _, args => .ok args
  | fuel + 1, arg :: rest, ended, args =>
    if ended then parseLoop resolve cfg fuel rest ended (pushPos args arg)
    else if arg = "--" then parseLoop resolve cfg fuel rest true args
    else if headDash arg then
      match (tokenKeyValue arg).1 with
      | none => .error (.unknownOption arg)
      | some key =>
        match lookupOption key with
        | none => .error (.unknownOption arg)
        | some spec =>
          if key = "password" ∧ cfg = false then .error .passwordOutsideConfig
          else if spec.kind = .boolean then
            parseLoop resolve cfg fuel rest ended (jsSet args key (.bool true))
          else
            match handleValued resolve key spec (tokenKeyValue arg).2 rest args with
            | .ok (a, rest') => parseLoop resolve cfg fuel rest' ended a
            | .error e => .error e
    else parseLoop resolve cfg fuel rest ended (pushPos args arg)

/-- The record every parse starts from: `const args: Args = { _: [] }`. -/
def emptyArgs : Args := [("_", .strList [])]

/-- `parse(argv, opts)`.  `cfg` is `!!opts?.configFile` (the config path only
changes error message text, which is not modelled); `resolve` is node's
`path.resolve`. -/
def parse (resolve : String → String) (argv : List String) (cfg : Bool) :
    Except ParseError Args :=
  parseLoop resolve cfg argv.length argv false emptyArgs

/-- A JavaScript number restricted to the values this engine can produce:
an integer or `NaN` (from `parseInt` on a non-numeric `$PORT`). -/
inductive JsNum where
  | int (n : Int)
  | nan
deriving DecidableEq

/-- `{ host, port }` as produced by the bind-address resolver. -/
structure Addr where
  host : String
  port : JsNum
deriving DecidableEq

/-- `parseInt(s, 10)` used in a position where the result is stored without a
`NaN` check. -/
def jsParseIntNum (s : String) : JsNum :=
  match jsParseInt s with
  | some n => .int n
  | none => .nan

/-- The authority part of `http://<s>`: the prefix of `s` before the first
`/`, `?` or `#`. -/
def takeAuthority : List Char → List Char
  | [] => []
  | c :: rest =>
    if c = '/' ∨ c = '?' ∨ c = '#' then [] else c :: takeAuthority rest

/-- Splits an authority around its last `:`; `none` when it has no `:`. -/
def splitLastColon : List Char → List Char × Option (List Char)
  | [] => ([], none)
  | c :: rest =>
    match splitLastColon rest with
    | (h, some p) => (c :: h, some p)
    | (h, none) => if c = ':' then ([], some rest) else (c :: h, none)

/-- `parseBindAddr`: `new URL("http://" + bindAddr)` then
`[u.hostname, u.port ? parseInt(u.port, 10) : 80]`.  The WHATWG `URL`
constructor is external; this models the fragment of its behaviour the
resolver relies on: the authority is everything before the first `/`, `?` or
`#`; the part after the last `:` of the authority is the port, which must be
decimal digits valuing at most 65535 (otherwise the constructor throws,
modelled as `none`, as it does for an empty host); an absent or empty port —
including an explicit `:80`, which the `http:` scheme drops — yields 80.
Hostname canonicalisation (lowercasing, punycode) and bracketed IPv6 hosts
without ports are not modelled; no claim exercises them. -/
def parseBindAddr (bindAddr : String) : Option (String × Int) :=
  let auth := takeAuthority bindAddr.data
  match splitLastColon auth with
  | (host, none) => if host = [] then none else some (⟨host⟩, 80)
  | (host, some portCs) =>
    if host = [] then none
    else if portCs = [] then some (⟨host⟩, 80)
    else if portCs.all Char.isDigit then
      if decimalValue portCs ≤ 65535 then some (⟨host⟩, (decimalValue portCs : Int))
      else none
    else none

/-- `if (args["bind-addr"]) [addr.host, addr.port] = parseBindAddr(...)`:
replace both components when the record has a truthy `bind-addr`; a throwing
`parseBindAddr` propagates as `none`. -/
def baBindAddr (addr : Addr) (args : Args) : Option Addr :=
  match jsGet args "bind-addr" with
  | some (.str s) =>
    if s ≠ "" then (parseBindAddr s).map fun p : String × Int => Addr.mk p.1 (.int p.2)
    else some addr
  | _ => some addr

/-- `if (args.host) addr.host = args.host`. -/
def baHost (addr : Addr) (args : Args) : Addr :=
  match jsGet args "host" with
  | some (.str h) => if h ≠ "" then { addr with host := h } else addr
  | _ => addr

/-- `if (process.env.PORT) addr.port = parseInt(process.env.PORT, 10)` — the
stored value is unchecked, so a non-numeric `$PORT` stores `NaN`. -/
def baEnvPort (envPort : Option String) (addr : Addr) : Addr :=
  match envPort with
  | some p => if p ≠ "" then { addr with port := jsParseIntNum p } else addr
  | none => addr

/-- `if (args.port !== undefined) addr.port = args.port` — presence, not
truthiness: a stored `0` also applies. -/
def baArgsPort (addr : Addr) (args : Args) : Addr :=
  match jsGet args "port" with
  | some (.num n) => { addr with port := .int n }
  | _ => addr

/-- `bindAddrFromArgs(addr, args)` (lines 456–472), the four updates in
source order.  `envPort` is `process.env.PORT`.  Note the source order: the
environment port is applied before `args.port`, so a record's own `port`
field overwrites the environment within one pass. -/
def bindAddrFromArgs (envPort : Option String) (addr : Addr) (args : Args) :
    Option Addr :=
  match baBindAddr addr args with
  | none => none
  | some addr1 => some (baArgsPort (baEnvPort envPort (baHost addr1 args)) args)

/-- `bindAddrFromAllSources(cliArgs, configArgs)` (lines 474–484): start from
`localhost:8080`, apply the config-file record, then the CLI record. -/
def bindAddrFromAllSources (envPort : Option String) (cliArgs configArgs : Args) :
    Option (String × JsNum) :=
  match bindAddrFromArgs envPort ⟨"localhost", .int 8080⟩ configArgs with
  | none => none
  | some a1 =>
    match bindAddrFromArgs envPort a1 cliArgs with
    | none => none
    | some a2 => some (a2.host, a2.port)

/-- A scalar value in the parsed YAML mapping. -/
inductive YamlScalar where
  | bool (b : Bool)
  | num (n : Int)
  | str (s : String)
deriving DecidableEq

/-- The result of `yaml.safeLoad` on the config file text: nothing (an empty
document), a bare scalar, a sequence, or a mapping of option names to
scalars.  YAML text parsing itself is the external black box; the embedding
starts from this value. -/
inductive YamlValue where
  | null
  | bool (b : Bool)
  | num (n : Int)
  | str (s : String)
  | seq (items : List YamlScalar)
  | mapping (entries : List (String × YamlScalar))
deriving DecidableEq

/-- JavaScript truthiness of the loaded document (`!config`). -/
def yamlTruthy : YamlValue → Bool
  | .null => false
  | .bool b => b
  | .num n => decide (n ≠ 0)
  | .str s => decide (s ≠ "")
  | .seq _ => true
  | .mapping _ => true

/-- `typeof config === "string"`. -/
def yamlIsString : YamlValue → Bool
  | .str _ => true
  | _ => false

/-- Template-literal stringification of a scalar (`` `--${optName}=${opt}` ``). -/
def scalarToString : YamlScalar → String
  | .bool true => "true"
  | .bool false => "false"
  | .num n => intToStr n
  | .str s => s

/-- `Object.entries(config)`: a mapping's own entries; an array's entries are
indexed by decimal strings; scalars have none. -/
def yamlEntries : YamlValue → List (String × YamlScalar)
  | .mapping es => es
  | .seq items => items.enum.map fun p => (natToStr p.1, p.2)
  | _ => []

/-- One synthesized flag token: boolean `true` becomes bare `--key`, any
other value becomes `--key=value`. -/
def entryToken (e : String × YamlScalar) : String :=
  if e.2 = .bool true then "--" ++ e.1 else "--" ++ e.1 ++ "=" ++ scalarToString e.2

/-- Failures of `readConfigFile`: the invalid-config throw, or a parse error
from the synthesized tokens. -/
inductive ConfigError where
  | invalidConfig
  | parseFailure (e : ParseError)
deriving DecidableEq

/-- `readConfigFile` from the parsed YAML document on (lines 418–441): the
`!config || typeof config === "string"` validity check, conversion of the
mapping into flag tokens, a parse in config-file context, and the resolved
config path layered on top.  Path resolution precedence, default-file
creation and file reading are I/O preceding this point and are not part of
the embedded computation. -/
def readConfigFile (resolve : String → String) (configPath : String)
    (doc : YamlValue) : Except ConfigError Args :=
  if yamlTruthy doc = false ∨ yamlIsString doc = true then .error .invalidConfig
  else
    match parse resolve ((yamlEntries doc).map entryToken) true with
    | .error e => .error (.parseFailure e)
    | .ok args => .ok (jsSet args "config" (.str configPath))

/-- A heap of configuration records, for observing aliasing and mutation in
`setDefaults`.  A reference is an index; `args = { ...args }` allocates a
fresh record holding a shallow copy of the fields. -/
abbrev Store := List Args

/-- Dereference (out-of-range reads never occur in the modelled runs). -/
def storeRead (st : Store) (r : Nat) : Args := (st.get? r).getD []

/-- Write one field through a reference — a JavaScript property assignment
`obj[k] = v` mutating the object in place. -/
def writeField (st : Store) (r : Nat) (k : String) (v : OptValue) : Store :=
  st.set r (jsSet (storeRead st r) k v)

/-- `!args[k]` read through a reference. -/
def fieldFalsy (st : Store) (r : Nat) (k : String) : Bool :=
  !(argTruthy (storeRead st r) k)

/-- A string field read through a reference (`""` when unset — the modelled
runs only read fields that are set). -/
def getStrField (st : Store) (r : Nat) (k : String) : String :=
  match jsGet (storeRead st r) k with
  | some (.str s) => s
  | _ => ""

/-- `if (!args["user-data-dir"])`: migrate the legacy macOS directory (a
filesystem-only effect that never touches the record) and fill in the
platform default data directory `paths.data`, passed in as `pathsData`
(`paths` lives in `./util`, outside the surveyed source). -/
def sdUserDataDir (pathsData : String) (st : Store) (a : Nat) : Store :=
  if fieldFalsy st a "user-data-dir" then
    writeField st a "user-data-dir" (.str pathsData)
  else st

/-- `if (!args["extensions-dir"])`: derive
`path.join(args["user-data-dir"], "extensions")`. -/
def sdExtensionsDir (st : Store) (a : Nat) : Store :=
  if fieldFalsy st a "extensions-dir" then
    writeField st a "extensions-dir"
      (.str (getStrField st a "user-data-dir" ++ "/extensions"))
  else st

/-- `process.env.LOG_LEVEL` is truthy and names a recognised level. -/
def envLogLevelValid : Option String → Bool
  | some s => decide (s ≠ "") && decide (s ∈ logLevelValues)
  | none => false

/-- Verbosity resolution: `--verbose` forces trace; otherwise a valid
`$LOG_LEVEL` fills an unset `--log`. -/
def sdLogFromEnv (envLogLevel : Option String) (st : Store) (a : Nat) : Store :=
  if argTruthy (storeRead st a) "verbose" then
    writeField st a "log" (.str "trace")
  else if fieldFalsy st a "log" ∧ envLogLevelValid envLogLevel then
    writeField st a "log" (.str (envLogLevel.getD ""))
  else st

/-- The `switch (args.log)` back-fill of `verbose` (the `logger.level`
assignment is an external logging collaborator). -/
def sdVerboseBackfill (st : Store) (a : Nat) : Store :=
  match jsGet (storeRead st a) "log" with
  | some (.str "trace") => writeField st a "verbose" (.bool true)
  | some (.str "debug") => writeField st a "verbose" (.bool false)
  | some (.str "info") => writeField st a "verbose" (.bool false)
  | some (.str "warn") => writeField st a "verbose" (.bool false)
  | some (.str "error") => writeField st a "verbose" (.bool false)
  | _ => st

/-- Result of `setDefaults`: the heap after the call, the reference to the
returned record, and the value of `process.env.LOG_LEVEL` after the
write-back. -/
structure SetDefaultsResult where
  store : Store
  ref : Nat
  logLevelEnv : Option String

/-- `setDefaults(args)` (lines 338–390) over the record heap: first
`args = { ...args }` allocates a fresh record holding a shallow copy of the
input's fields, and every subsequent property assignment goes through the
fresh reference; finally `process.env.LOG_LEVEL` is synchronised from the
resolved `log` field. -/
def setDefaults (pathsData : String) (envLogLevel : Option String)
    (st : Store) (input : Nat) : SetDefaultsResult :=
  let a := st.length
  let st1 := st ++ [storeRead st input]
  let st2 := sdUserDataDir pathsData st1 a
  let st3 := sdExtensionsDir st2 a
  let st4 := sdLogFromEnv envLogLevel st3 a
  let envOut :=
    if fieldFalsy st4 a "log" then envLogLevel else some (getStrField st4 a "log")
  let st5 := sdVerboseBackfill st4 a
  ⟨st5, a, envOut⟩

/-- The observable world of `shouldOpenInExistingInstance`:
`process.env.VSCODE_IPC_HOOK_CLI`, the contents of the well-known
`vscode-ipc` file (`none` for `ENOENT`, treated as "no running instance"),
and the liveness probe `canConnect` from `./util`, an external collaborator
modelled by its result. -/
structure InstanceWorld where
  ipcHookCli : Option String
  socketFile : Option String
  canConnect : String → Bool

/-- The body of `shouldOpenInExistingInstance` after the inherited-channel
short-circuit: the open-in-existing-window flag count, the nothing-but-paths
check (`Object.keys(args).length === 1 && args._.length > 0`), and the
liveness probe. -/
def shouldOpenBody (w : InstanceWorld) (args : Args) : Option String :=
  let openInFlagCount :=
    (if argTruthy args "reuse-window" then 1 else 0) +
    (if argTruthy args "new-window" then 1 else 0)
  if openInFlagCount > 0 then w.socketFile
  else if args.length = 1 ∧ (jsGetList args "_").length > 0 then
    match w.socketFile with
    | some s => if s ≠ "" ∧ w.canConnect s then some s else none
    | none => none
  else none

/-- `shouldOpenInExistingInstance(args)` (lines 510–548).  `args` must be the
explicit, pre-defaults CLI record. -/
def shouldOpenInExistingInstance (w : InstanceWorld) (args : Args) : Option String :=
  match w.ipcHookCli with
  | some hook =>
    if hook ≠ "" then some hook
    else shouldOpenBody w args
  | none => shouldOpenBody w args

/-- Re-serialization of a stored value into `--key=value` form, as described
by the round-trip property: one token per stored scalar, one per list
element, booleans as a bare `--key`, and a present-without-payload
`OptionalString` as a bare `--key` (re-serializing distinctly from an absent
key). -/
def serializeValueTokens (k : String) : OptValue → List String
  | .bool _ => ["--" ++ k]
  | .str s => ["--" ++ k ++ "=" ++ s]
  | .num n => ["--" ++ k ++ "=" ++ intToStr n]
  | .strList l => l.map fun s => "--" ++ k ++ "=" ++ s
  | .optStr (some s) => ["--" ++ k ++ "=" ++ s]
  | .optStr none => ["--" ++ k]

/-- Flag tokens for every stored field, in record insertion order; the
positional list `_` is emitted separately. -/
def serializeFields : Args → List String
  | [] => []
  | (k, v) :: rest =>
    (if k = "_" then [] else serializeValueTokens k v) ++ serializeFields rest

/-- Re-serialization of a whole record: field tokens, then the positional
arguments after a literal `--`. -/
def serializeArgs (a : Args) : List String :=
  serializeFields a ++ "--" :: jsGetList a "_"

/-- For a path-resolved option the stored value must be a fixed point of the
resolver (true of every value `parse` stores, since `path.resolve` is
idempotent). -/
def pathOk (resolve : String → String) (isP : Bool) (s : String) : Bool :=
  if isP then decide (resolve s = s) else true

/-- The per-field typing invariant `parse` maintains: the key is in the
catalog, the stored value matches its kind, booleans are `true`, enum values
are members of the accepted set, scalar payloads are non-empty, list values
are non-empty lists of non-empty strings, an `OptionalString` payload is
never the literal `"false"`, values of path options are resolver fixed
points, and `password` only ever appears in config-file context. -/
def valueOkCore (resolve : String → String) (cfg : Bool) (k : String)
    (v : OptValue) : Bool :=
  match lookupOption k with
  | none => false
  | some spec =>
    (decide (k ≠ "password") || cfg) &&
    match v with
    | .bool b => decide (spec.kind = .boolean) && b
    | .str s =>
      (match spec.kind with
       | .str => true
       | .enum values => decide (s ∈ values)
       | _ => false) && decide (s ≠ "") && pathOk resolve spec.isPath s
    | .num _ => decide (spec.kind = .number)
    | .strList l =>
      decide (spec.kind = .strList) && decide (l ≠ []) &&
      l.all fun s => decide (s ≠ "") && pathOk resolve spec.isPath s
    | .optStr none => decide (spec.kind = .optionalString)
    | .optStr (some s) =>
      decide (spec.kind = .optionalString) && decide (s ≠ "false") &&
      (decide (s = "") || pathOk resolve spec.isPath s)

/-- The non-positional fields of a record: keys distinct, none of them `_`,
each value satisfying the typing invariant. -/
def fieldsOk (resolve : String → String) (cfg : Bool) :
    List (String × OptValue) → Bool
  | [] => true
  | (k, v) :: rest =>
    decide (k ≠ "_") && rest.all (fun p => decide (p.1 ≠ k)) &&
    valueOkCore resolve cfg k v && fieldsOk resolve cfg rest

/-- The value is a string list. -/
def isStrListVal : OptValue → Bool
  | .strList _ => true
  | _ => false

/-- A well-formed configuration record: the positional list first (as every
record built by `parse` has it), then well-typed fields. -/
def wfRecord (resolve : String → String) (cfg : Bool) : Args → Bool
  | [] => false
  | (k, v) :: fields =>
    decide (k = "_") && isStrListVal v && fieldsOk resolve cfg fields

/-- No `'='` occurs in the string. -/
def eqFreeStr (s : String) : Bool := decide ('=' ∉ s.data)

/-- No stored string payload of the value contains `'='`. -/
def valueEqFree : OptValue → Bool
  | .str s => eqFreeStr s
  | .strList l => l.all eqFreeStr
  | .optStr (some s) => eqFreeStr s
  | _ => true

/-- No stored string payload anywhere in the record contains `'='`. -/
def recordEqFree (a : Args) : Bool := a.all fun p => valueEqFree p.2

/-- A concrete stand-in for node's `path.resolve` with the properties the
real one has on every input this engine feeds it: idempotent, never empty,
never the literal `"false"`, used to instantiate theorems that are generic in
the resolver. -/
def resolveModel (s : String) : String :=
  match s.data with
  | '/' :: _ => s
  | _ => "/" ++ s

/-! ### Association-list and record basics -/

theorem assocLookup_mem {α : Type} (l : List (String × α)) (k : String) (v : α)
    (h : assocLookup l k = some v) : (k, v) ∈ l := by
  induction l with
  | nil => simp [assocLookup] at h
  | cons p rest ih =>
    obtain ⟨k', v'⟩ := p
    by_cases hk : k' = k
    · subst hk
      simp [assocLookup] at h
      simp [h]
    · simp only [assocLookup, if_neg hk] at h
      exact List.mem_cons_of_mem _ (ih h)

theorem jsGet_cons (k' k : String) (v : OptValue) (a : Args) :
    jsGet ((k', v) :: a) k = if k' = k then some v else jsGet a k := rfl

theorem jsGet_absent (a : Args) (k : String) (h : ∀ p ∈ a, p.1 ≠ k) :
    jsGet a k = none := by
  induction a with
  | nil => rfl
  | cons p rest ih =>
    have hp : p.1 ≠ k := h p (List.mem_cons_self _ _)
    obtain ⟨k', v'⟩ := p
    simp only [jsGet, assocLookup, if_neg hp]
    exact ih fun q hq => h q (List.mem_cons_of_mem _ hq)

theorem jsGet_append (a b : Args) (k : String) :
    jsGet (a ++ b) k =
      match jsGet a k with
      | some v => some v
      | none => jsGet b k := by
  induction a with
  | nil => rfl
  | cons p rest ih =>
    obtain ⟨k', v'⟩ := p
    by_cases hk : k' = k
    · subst hk; simp [jsGet, assocLookup]
    · simpa [jsGet, assocLookup, hk] using ih

theorem jsSet_fresh (a : Args) (k : String) (v : OptValue)
    (h : ∀ p ∈ a, p.1 ≠ k) : jsSet a k v = a ++ [(k, v)] := by
  induction a with
  | nil => rfl
  | cons p rest ih =>
    have hp : p.1 ≠ k := h p (List.mem_cons_self _ _)
    obtain ⟨k', v'⟩ := p
    simp only [jsSet, if_neg hp, List.cons_append, List.cons.injEq, true_and]
    exact ih fun q hq => h q (List.mem_cons_of_mem _ hq)

theorem jsSet_append_last (a : Args) (k : String) (w v : OptValue)
    (h : ∀ p ∈ a, p.1 ≠ k) : jsSet (a ++ [(k, w)]) k v = a ++ [(k, v)] := by
  induction a with
  | nil => simp [jsSet]
  | cons p rest ih =>
    have hp : p.1 ≠ k := h p (List.mem_cons_self _ _)
    obtain ⟨k', v'⟩ := p
    simp only [List.cons_append, jsSet, if_neg hp, List.cons.injEq, true_and]
    exact ih fun q hq => h q (List.mem_cons_of_mem _ hq)

theorem jsGet_append_last (a : Args) (k : String) (v : OptValue)
    (h : ∀ p ∈ a, p.1 ≠ k) : jsGet (a ++ [(k, v)]) k = some v := by
  rw [jsGet_append, jsGet_absent a k h]
  simp [jsGet, assocLookup]

theorem pushPos_head (l : List String) (fields : Args) (s : String) :
    pushPos (("_", .strList l) :: fields) s = ("_", .strList (l ++ [s])) :: fields := rfl

/-! ### Catalog facts -/

/-- Shape facts about catalog keys: non-empty, not starting with a dash, no
`'='` inside, and the only restricted key is `password`, whose kind is
string. -/
theorem catalog_key_shape (k : String) (spec : OptionSpec)
    (h : lookupOption k = some spec) :
    k.data ≠ [] ∧ k.data.head? ≠ some '-' ∧ '=' ∉ k.data := by
  have hm := assocLookup_mem _ _ _ h
  have hall : ∀ p ∈ optionsCatalog,
      p.1.data ≠ [] ∧ p.1.data.head? ≠ some '-' ∧ '=' ∉ p.1.data := by decide
  exact hall _ hm

theorem catalog_password_str (spec : OptionSpec)
    (h : lookupOption "password" = some spec) : spec.kind = .str := by
  have hm := assocLookup_mem _ _ _ h
  have hall : ∀ p ∈ optionsCatalog, p.1 = "password" → p.2.kind = .str := by decide
  exact hall _ hm rfl

theorem catalog_boolean_not_password (k : String) (spec : OptionSpec)
    (h : lookupOption k = some spec) (hb : spec.kind = .boolean) :
    k ≠ "password" ∧ k ≠ "config" ∧ k ≠ "_" := by
  have hm := assocLookup_mem _ _ _ h
  have hall : ∀ p ∈ optionsCatalog, p.2.kind = .boolean →
      p.1 ≠ "password" ∧ p.1 ≠ "config" ∧ p.1 ≠ "_" := by decide
  exact hall _ hm hb

theorem catalog_number_shape (k : String) (spec : OptionSpec)
    (h : lookupOption k = some spec) (hn : spec.kind = .number) :
    k ≠ "password" ∧ spec.isPath = false ∧ k ≠ "_" := by
  have hm := assocLookup_mem _ _ _ h
  have hall : ∀ p ∈ optionsCatalog, p.2.kind = .number →
      p.1 ≠ "password" ∧ p.2.isPath = false ∧ p.1 ≠ "_" := by decide
  exact hall _ hm hn

/-! ### Decimal digits and `parseInt` -/

theorem decimalValue_append_one (xs : List Char) (c : Char) :
    decimalValue (xs ++ [c]) = decimalValue xs * 10 + digitVal c := by
  simp [decimalValue, List.foldl_append]

theorem digitChar_facts (n : Nat) (h : n < 10) :
    (digitChar n).isDigit = true ∧ (digitChar n).isWhitespace = false ∧
    digitChar n ≠ '-' ∧ digitChar n ≠ '+' ∧ digitChar n ≠ '=' ∧
    digitVal (digitChar n) = n := by
  interval_cases n <;> exact ⟨rfl, rfl, by decide, by decide, by decide, rfl⟩

theorem natDigitsGo_spec (fuel : Nat) : ∀ n : Nat, n ≤ fuel →
    natDigitsGo fuel n ≠ [] ∧
    (∀ c ∈ natDigitsGo fuel n, ∃ m, m < 10 ∧ c = digitChar m) ∧
    decimalValue (natDigitsGo fuel n) = n := by
  induction fuel with
  | zero =>
    intro n hn
    have : n = 0 := by omega
    subst this
    refine ⟨by simp [natDigitsGo], ?_, rfl⟩
    intro c hc
    simp [natDigitsGo] at hc
    exact ⟨0, by omega, hc⟩
  | succ fuel ih =>
    intro n hn
    by_cases h10 : n < 10
    · refine ⟨by simp [natDigitsGo, h10], ?_, ?_⟩
      · intro c hc
        simp [natDigitsGo, h10] at hc
        exact ⟨n, h10, hc⟩
      · simp [natDigitsGo, h10, decimalValue, digitVal,
          (digitChar_facts n h10).2.2.2.2.2]
        exact (digitChar_facts n h10).2.2.2.2.2
    · have hdivlt : n / 10 < n := Nat.div_lt_self (by omega) (by omega)
      have hdiv : n / 10 ≤ fuel := by omega
      obtain ⟨hne, hdig, hval⟩ := ih (n / 10) hdiv
      have hmod : n % 10 < 10 := Nat.mod_lt _ (by omega)
      refine ⟨by simp [natDigitsGo, h10], ?_, ?_⟩
      · intro c hc
        simp only [natDigitsGo, if_neg h10, List.mem_append, List.mem_singleton] at hc
        rcases hc with hc | hc
        · exact hdig c hc
        · exact ⟨n % 10, hmod, hc⟩
      · simp only [natDigitsGo, if_neg h10, decimalValue_append_one, hval,
          (digitChar_facts _ hmod).2.2.2.2.2]
        omega

theorem natDigits_spec (n : Nat) :
    natDigits n ≠ [] ∧
    (∀ c ∈ natDigits n, ∃ m, m < 10 ∧ c = digitChar m) ∧
    decimalValue (natDigits n) = n :=
  natDigitsGo_spec n n le_rfl

theorem takeWhile_all {p : Char → Bool} (l : List Char) (h : ∀ c ∈ l, p c = true) :
    l.takeWhile p = l := by
  induction l with
  | nil => rfl
  | cons c rest ih =>
    rw [List.takeWhile_cons, if_pos (h c (List.mem_cons_self _ _))]
    rw [ih fun d hd => h d (List.mem_cons_of_mem _ hd)]

theorem dropWhile_head_false {p : Char → Bool} (c : Char) (rest : List Char)
    (h : p c = false) : (c :: rest).dropWhile p = c :: rest := by
  rw [List.dropWhile_cons, if_neg (by simp [h])]

theorem jsParseInt_natDigits (m : Nat) : jsParseInt ⟨natDigits m⟩ = some (m : Int) := by
  obtain ⟨hne, hdig, hval⟩ := natDigits_spec m
  obtain ⟨c, rest, hcr⟩ : ∃ c rest, natDigits m = c :: rest := by
    cases h : natDigits m with
    | nil => exact absurd h hne
    | cons c rest => exact ⟨c, rest, rfl⟩
  obtain ⟨k, hk10, hck⟩ := hdig c (by rw [hcr]; exact List.mem_cons_self _ _)
  have hfacts := digitChar_facts k hk10
  have hdigit : ∀ d ∈ natDigits m, d.isDigit = true := by
    intro d hd
    obtain ⟨j, hj10, hdj⟩ := hdig d hd
    rw [hdj]
    exact (digitChar_facts j hj10).1
  rw [jsParseInt]
  simp only [hcr] at hdigit ⊢
  rw [dropWhile_head_false c rest (by rw [hck]; exact hfacts.2.1)]
  have htw : (c :: rest).takeWhile Char.isDigit = c :: rest := takeWhile_all _ hdigit
  split
  · rename_i rest' heq
    exfalso
    have : c = '-' := by injection heq
    rw [hck] at this
    exact hfacts.2.2.1 this
  · rename_i rest' heq
    exfalso
    have : c = '+' := by injection heq
    rw [hck] at this
    exact hfacts.2.2.2.1 this
  · rw [htw, if_neg (by simp), ← hcr, hval]

theorem jsParseInt_intToStr (n : Int) : jsParseInt (intToStr n) = some n := by
  by_cases h : n < 0
  · rw [intToStr, if_pos h]
    obtain ⟨hne, hdig, hval⟩ := natDigits_spec (-n).toNat
    rw [jsParseInt]
    show (match ('-' :: natDigits (-n).toNat).dropWhile Char.isWhitespace with
      | '-' :: rest =>
        let ds := rest.takeWhile Char.isDigit
        if ds = [] then none else some (-(decimalValue ds : Int))
      | '+' :: rest =>
        let ds := rest.takeWhile Char.isDigit
        if ds = [] then none else some ((decimalValue ds : Int))
      | rest =>
        let ds := rest.takeWhile Char.isDigit
        if ds = [] then none else some ((decimalValue ds : Int))) = some n
    rw [dropWhile_head_false '-' _ (by decide)]
    have hdigit : ∀ d ∈ natDigits (-n).toNat, d.isDigit = true := by
      intro d hd
      obtain ⟨j, hj10, hdj⟩ := hdig d hd
      rw [hdj]
      exact (digitChar_facts j hj10).1
    have htw : (natDigits (-n).toNat).takeWhile Char.isDigit = natDigits (-n).toNat :=
      takeWhile_all _ hdigit
    simp only [htw, if_neg hne, hval]
    congr 1
    have : ((-n).toNat : Int) = -n := Int.toNat_of_nonneg (by omega)
    omega
  · rw [intToStr, if_neg h]
    rw [jsParseInt_natDigits]
    congr 1
    omega

/-! ### Token decomposition and `parseLoop` step lemmas -/

theorem long_tok_data (k : String) : ("--" ++ k).data = '-' :: '-' :: k.data := by
  simp [String.data_append]

theorem long_tokV_data (k v : String) :
    ("--" ++ k ++ "=" ++ v).data = '-' :: '-' :: (k.data ++ '=' :: v.data) := by
  simp [String.data_append]

theorem mk_data (s : String) : (⟨s.data⟩ : String) = s := rfl

theorem takeNonEq_all (v : List Char) (h : '=' ∉ v) : takeNonEq v = v := by
  induction v with
  | nil => rfl
  | cons c rest ih =>
    simp only [List.mem_cons, not_or] at h
    rw [takeNonEq, if_neg (Ne.symm h.1), ih h.2]

theorem splitEq2_noeq (k : List Char) (h : '=' ∉ k) : splitEq2 k = (k, none) := by
  induction k with
  | nil => rfl
  | cons c rest ih =>
    simp only [List.mem_cons, not_or] at h
    rw [splitEq2, if_neg (Ne.symm h.1)]
    simp [ih h.2]

theorem splitEq2_append (k v : List Char) (h : '=' ∉ k) :
    splitEq2 (k ++ '=' :: v) = (k, some (takeNonEq v)) := by
  induction k with
  | nil => simp [splitEq2]
  | cons c rest ih =>
    simp only [List.mem_cons, not_or] at h
    rw [List.cons_append, splitEq2, if_neg (Ne.symm h.1)]
    simp [ih h.2]

theorem tokenKeyValue_long_bare (key : String) (heq : '=' ∉ key.data) :
    tokenKeyValue ("--" ++ key) = (some key, none) := by
  rw [tokenKeyValue]
  simp [long_tok_data, splitEq2_noeq key.data heq, mk_data]

theorem tokenKeyValue_long_inline (key v : String) (heq : '=' ∉ key.data) :
    tokenKeyValue ("--" ++ key ++ "=" ++ v) =
      (some key, some ⟨takeNonEq v.data⟩) := by
  rw [tokenKeyValue]
  simp [long_tokV_data, splitEq2_append key.data v.data heq, mk_data]

theorem parseLoop_long_bare (resolve : String → String) (cfg : Bool) (fuel : Nat)
    (key : String) (spec : OptionSpec) (rest : List String) (args : Args)
    (hk : lookupOption key = some spec)
    (hpw : ¬(key = "password" ∧ cfg = false)) :
    parseLoop resolve cfg (fuel + 1) (("--" ++ key) :: rest) false args =
      if spec.kind = .boolean then
        parseLoop resolve cfg fuel rest false (jsSet args key (.bool true))
      else
        match handleValued resolve key spec none rest args with
        | .ok (a, rest') => parseLoop resolve cfg fuel rest' false a
        | .error e => .error e := by
  obtain ⟨hne, hhd, heq⟩ := catalog_key_shape key spec hk
  have hsep : ("--" ++ key) ≠ "--" := by
    intro h
    have := congrArg String.data h
    rw [long_tok_data] at this
    simp at this
    exact hne this
  have hdash : headDash ("--" ++ key) = true := by
    simp [headDash, long_tok_data]
  rw [parseLoop]
  simp only [Bool.false_eq_true, if_false, hsep, hdash, if_true,
    tokenKeyValue_long_bare key heq, hk, hpw]

theorem parseLoop_long_inline (resolve : String → String) (cfg : Bool) (fuel : Nat)
    (key v : String) (spec : OptionSpec) (rest : List String) (args : Args)
    (hk : lookupOption key = some spec)
    (hpw : ¬(key = "password" ∧ cfg = false)) :
    parseLoop resolve cfg (fuel + 1) (("--" ++ key ++ "=" ++ v) :: rest) false args =
      if spec.kind = .boolean then
        parseLoop resolve cfg fuel rest false (jsSet args key (.bool true))
      else
        match handleValued resolve key spec (some ⟨takeNonEq v.data⟩) rest args with
        | .ok (a, rest') => parseLoop resolve cfg fuel rest' false a
        | .error e => .error e := by
  obtain ⟨hne, hhd, heq⟩ := catalog_key_shape key spec hk
  have hsep : ("--" ++ key ++ "=" ++ v) ≠ "--" := by
    intro h
    have := congrArg String.data h
    rw [long_tokV_data] at this
    simp at this
  have hdash : headDash ("--" ++ key ++ "=" ++ v) = true := by
    simp [headDash, long_tokV_data]
  rw [parseLoop]
  simp only [Bool.false_eq_true, if_false, hsep, hdash, if_true,
    tokenKeyValue_long_inline key v heq, hk, hpw]

theorem parseLoop_sep (resolve : String → String) (cfg : Bool) (fuel : Nat)
    (rest : List String) (args : Args) :
    parseLoop resolve cfg (fuel + 1) ("--" :: rest) false args =
      parseLoop resolve cfg fuel rest true args := by
  rw [parseLoop]
  simp

theorem parseLoop_pos (resolve : String → String) (cfg : Bool) (fuel : Nat)
    (arg : String) (rest : List String) (args : Args)
    (hsep : arg ≠ "--") (hdash : headDash arg = false) :
    parseLoop resolve cfg (fuel + 1) (arg :: rest) false args =
      parseLoop resolve cfg fuel rest false (pushPos args arg) := by
  rw [parseLoop]
  simp [hsep, hdash]

theorem parseLoop_ended_step (resolve : String → String) (cfg : Bool) (fuel : Nat)
    (arg : String) (rest : List String) (args : Args) :
    parseLoop resolve cfg (fuel + 1) (arg :: rest) true args =
      parseLoop resolve cfg fuel rest true (pushPos args arg) := by
  rw [parseLoop]
  simp

theorem parseLoop_ended (resolve : String → String) (cfg : Bool) :
    ∀ (toks : List String) (fuel : Nat), toks.length ≤ fuel → ∀ (args : Args),
    parseLoop resolve cfg fuel toks true args = .ok (toks.foldl pushPos args) := by
  intro toks
  induction toks with
  | nil => intro fuel _ args; cases fuel <;> rfl
  | cons arg rest ih =>
    intro fuel hf args
    match fuel, hf with
    | fuel + 1, hf =>
      rw [parseLoop_ended_step, ih fuel (by simpa using hf)]
      rfl

/-! ### Bind-address resolution lemmas -/

theorem takeAuthority_all (cs : List Char)
    (h : ∀ c ∈ cs, c ≠ '/' ∧ c ≠ '?' ∧ c ≠ '#') : takeAuthority cs = cs := by
  induction cs with
  | nil => rfl
  | cons c rest ih =>
    obtain ⟨h1, h2, h3⟩ := h c (List.mem_cons_self _ _)
    rw [takeAuthority, if_neg (by simp [h1, h2, h3])]
    rw [ih fun d hd => h d (List.mem_cons_of_mem _ hd)]

theorem splitLastColon_nocolon (cs : List Char) (h : ':' ∉ cs) :
    splitLastColon cs = (cs, none) := by
  induction cs with
  | nil => rfl
  | cons c rest ih =>
    simp only [List.mem_cons, not_or] at h
    rw [splitLastColon, ih h.2]
    simp [Ne.symm h.1]

theorem str_ne_empty_data (s : String) (h : s ≠ "") : s.data ≠ [] := by
  intro hd
  apply h
  cases s with
  | mk data =>
    have hd' : data = [] := hd
    subst hd'
    rfl

theorem parseBindAddr_port_bound (s : String) (host : String) (p : Int)
    (h : parseBindAddr s = some (host, p)) : 0 ≤ p ∧ p ≤ 65535 := by
  rw [parseBindAddr] at h
  split at h
  · split at h
    · exact absurd h (by simp)
    · simp at h
      omega
  · split at h
    · exact absurd h (by simp)
    · split at h
      · simp at h
        omega
      · split at h
        · split at h
          · simp at h
            obtain ⟨_, h2⟩ := h
            rename_i hle _
            omega
          · exact absurd h (by simp)
        · exact absurd h (by simp)

theorem baHost_port (addr : Addr) (args : Args) :
    (baHost addr args).port = addr.port := by
  rw [baHost]
  split
  · split <;> rfl
  · rfl

theorem baEnvPort_none (addr : Addr) : baEnvPort none addr = addr := rfl

theorem baEnvPort_some (p : String) (hp : p ≠ "") (addr : Addr) :
    baEnvPort (some p) addr = { addr with port := jsParseIntNum p } := by
  rw [baEnvPort, if_pos hp]

theorem baArgsPort_absent (addr : Addr) (args : Args)
    (h : jsGet args "port" = none) : baArgsPort addr args = addr := by
  rw [baArgsPort, h]

theorem baArgsPort_num (addr : Addr) (args : Args) (n : Int)
    (h : jsGet args "port" = some (.num n)) :
    baArgsPort addr args = { addr with port := .int n } := by
  rw [baArgsPort, h]

theorem baBindAddr_port_bound (addr : Addr) (args : Args) (addr1 : Addr)
    (m : Int) (haddr : addr.port = .int m) (hb : 0 ≤ m ∧ m ≤ 65535)
    (h : baBindAddr addr args = some addr1) :
    ∃ m', addr1.port = .int m' ∧ 0 ≤ m' ∧ m' ≤ 65535 := by
  rw [baBindAddr] at h
  split at h
  · rename_i s hs
    split at h
    · simp only [Option.map_eq_some'] at h
      obtain ⟨⟨h1, p1⟩, hpb, heq⟩ := h
      subst heq
      exact ⟨p1, rfl, parseBindAddr_port_bound s h1 p1 hpb⟩
    · simp only [Option.some.injEq] at h
      subst h
      exact ⟨m, haddr, hb⟩
  · simp only [Option.some.injEq] at h
    subst h
    exact ⟨m, haddr, hb⟩

theorem bindAddrFromArgs_env_wins (p : String) (hp : p ≠ "") (addr : Addr)
    (args : Args) (hnoport : jsGet args "port" = none)
    (res : Addr) (h : bindAddrFromArgs (some p) addr args = some res) :
    res.port = jsParseIntNum p := by
  rw [bindAddrFromArgs] at h
  split at h
  · exact absurd h (by simp)
  · simp only [Option.some.injEq] at h
    subst h
    rw [baArgsPort_absent _ _ hnoport, baEnvPort_some p hp]

theorem bindAddrFromArgs_cli_port (envPort : Option String) (addr : Addr)
    (args : Args) (n : Int) (hport : jsGet args "port" = some (.num n))
    (res : Addr) (h : bindAddrFromArgs envPort addr args = some res) :
    res.port = .int n := by
  rw [bindAddrFromArgs] at h
  split at h
  · exact absurd h (by simp)
  · simp only [Option.some.injEq] at h
    subst h
    rw [baArgsPort_num _ _ n hport]

theorem bindAddrFromArgs_bound (addr : Addr) (args : Args) (m : Int)
    (haddr : addr.port = .int m) (hb : 0 ≤ m ∧ m ≤ 65535)
    (hnoport : jsGet args "port" = none)
    (res : Addr) (h : bindAddrFromArgs none addr args = some res) :
    ∃ m', res.port = .int m' ∧ 0 ≤ m' ∧ m' ≤ 65535 := by
  rw [bindAddrFromArgs] at h
  split at h
  · exact absurd h (by simp)
  · rename_i addr1 ha1
    simp only [Option.some.injEq] at h
    subst h
    obtain ⟨m', hp', hb'⟩ := baBindAddr_port_bound addr args addr1 m haddr hb ha1
    refine ⟨m', ?_, hb'⟩
    rw [baArgsPort_absent _ _ hnoport, baEnvPort_none, baHost_port, hp']

/-- C1, counterexample: with `PORT=7777` and a CLI record carrying the legacy
`port: 9999` field (as produced by `--port=9999`), the resolved port is 9999:
the environment port does not win over the CLI record's port field, because
`bindAddrFromArgs` applies `args.port` after `process.env.PORT`. -/
theorem C1_counterexample :
    bindAddrFromAllSources (some "7777")
      [("_", .strList []), ("port", .num 9999)] [("_", .strList [])] =
      some ("localhost", .int 9999) ∧
    JsNum.int 9999 ≠ .int 7777 := by
  constructor
  · decide
  · decide

/-- C1, amended: when `PORT` is set (non-empty), its `parseInt` value is the
resolved port for every pair of records — bind-addr ports, hosts, and the
config record's legacy port notwithstanding — unless the CLI record's legacy
`port` field is set, in which case that field wins over the environment. -/
theorem C1_env_port_precedence (envp : String) (cliArgs configArgs : Args)
    (host : String) (port : JsNum) (hp : envp ≠ "")
    (h : bindAddrFromAllSources (some envp) cliArgs configArgs = some (host, port)) :
    (jsGet cliArgs "port" = none → port = jsParseIntNum envp) ∧
    (∀ n : Int, jsGet cliArgs "port" = some (.num n) → port = .int n) := by
  rw [bindAddrFromAllSources] at h
  split at h
  · exact absurd h (by simp)
  · rename_i a1 ha1
    split at h
    · exact absurd h (by simp)
    · rename_i a2 ha2
      simp only [Option.some.injEq, Prod.mk.injEq] at h
      constructor
      · intro hn
        rw [← h.2]
        exact bindAddrFromArgs_env_wins envp hp a1 cliArgs hn a2 ha2
      · intro n hn
        rw [← h.2]
        exact bindAddrFromArgs_cli_port (some envp) a1 cliArgs n hn a2 ha2

/-- C1, witness: `PORT=7777` against a config record with legacy port 1234
and a CLI record without one resolves to port 7777. -/
theorem C1_witness :
    bindAddrFromAllSources (some "7777") [("_", .strList [])]
      [("_", .strList []), ("port", .num 1234)] =
      some ("localhost", .int 7777) ∧
    JsNum.int 7777 = jsParseIntNum "7777" := by
  refine ⟨by decide, ?_⟩
  exact (C1_env_port_precedence "7777" [("_", .strList [])]
    [("_", .strList []), ("port", .num 1234)] "localhost" (.int 7777)
    (by decide) (by decide)).1 (by decide)

/-- C4, counterexample: a CLI record with legacy `port: 99999` (as produced
by `--port=99999`) resolves to port 99999, outside 0–65535. -/
theorem C4_counterexample :
    bindAddrFromAllSources none
      [("_", .strList []), ("port", .num 99999)] [("_", .strList [])] =
      some ("localhost", .int 99999) ∧
    ¬((99999 : Int) ≤ 65535) := by
  constructor
  · decide
  · decide

/-- C4, amended: when `PORT` is unset and neither record sets the legacy
`port` field, every resolved address has an integer port in 0–65535 (it comes
from the 8080 default or from `parseBindAddr`, whose URL model rejects ports
above 65535); the legacy `port` fields and `$PORT` can escape the range. -/
theorem C4_port_range (cliArgs configArgs : Args) (host : String) (port : JsNum)
    (hcli : jsGet cliArgs "port" = none) (hcfg : jsGet configArgs "port" = none)
    (h : bindAddrFromAllSources none cliArgs configArgs = some (host, port)) :
    ∃ n : Int, port = .int n ∧ 0 ≤ n ∧ n ≤ 65535 := by
  rw [bindAddrFromAllSources] at h
  split at h
  · exact absurd h (by simp)
  · rename_i a1 ha1
    split at h
    · exact absurd h (by simp)
    · rename_i a2 ha2
      simp only [Option.some.injEq, Prod.mk.injEq] at h
      obtain ⟨m1, hm1, hb1⟩ :=
        bindAddrFromArgs_bound ⟨"localhost", .int 8080⟩ configArgs 8080 rfl
          (by omega) hcfg a1 ha1
      obtain ⟨m2, hm2, hb2⟩ :=
        bindAddrFromArgs_bound a1 cliArgs m1 hm1 hb1 hcli a2 ha2
      exact ⟨m2, by rw [← h.2, hm2], hb2⟩

/-- C4, witness: a config record with `bind-addr: 0.0.0.0:9000` resolves to
port 9000, inside the range. -/
theorem C4_witness :
    bindAddrFromAllSources none [("_", .strList [])]
      [("_", .strList []), ("bind-addr", .str "0.0.0.0:9000")] =
      some ("0.0.0.0", .int 9000) ∧
    ∃ n : Int, JsNum.int 9000 = .int n ∧ 0 ≤ n ∧ n ≤ 65535 := by
  refine ⟨by decide, ?_⟩
  exact C4_port_range [("_", .strList [])]
    [("_", .strList []), ("bind-addr", .str "0.0.0.0:9000")] "0.0.0.0"
    (.int 9000) (by decide) (by decide) (by decide)

/-- C7: a bind-addr string that is a bare host — non-empty, with no port
separator (and none of the characters that would start a path, query or
fragment in the URL model) — parses to port 80, not the application default
8080. -/
theorem C7_parseBindAddr_no_port (s : String) (hne : s ≠ "")
    (hclean : ∀ c ∈ s.data, c ≠ ':' ∧ c ≠ '/' ∧ c ≠ '?' ∧ c ≠ '#') :
    parseBindAddr s = some (s, 80) := by
  rw [parseBindAddr]
  rw [takeAuthority_all s.data fun c hc =>
    ⟨(hclean c hc).2.1, (hclean c hc).2.2.1, (hclean c hc).2.2.2⟩]
  rw [splitLastColon_nocolon s.data fun hc => (hclean ':' hc).1 rfl]
  simp [str_ne_empty_data s hne, mk_data]

/-- C7, witness: `parseBindAddr("example.com")` yields `("example.com", 80)`. -/
theorem C7_witness : parseBindAddr "example.com" = some ("example.com", 80) :=
  C7_parseBindAddr_no_port "example.com" (by decide) (by decide)

/-! ### Existing-instance detection (C2) -/

/-- C2: with the inherited control channel unset, the detector (i) returns
the socket-reference file contents unconditionally — for every probe function
— when the explicit CLI record has `reuse-window` or `new-window` set, (ii)
for a record holding nothing but a non-empty positional list, returns the
reference exactly when it was read, is non-empty and the liveness probe
succeeds, and (iii) returns no redirection in every other case. -/
theorem C2_shouldOpen (w : InstanceWorld) (args : Args)
    (hipc : w.ipcHookCli = none) :
    ((jsGet args "reuse-window" = some (.bool true) ∨
      jsGet args "new-window" = some (.bool true)) →
       shouldOpenInExistingInstance w args = w.socketFile) ∧
    (∀ l : List String, args = [("_", .strList l)] → l ≠ [] →
       shouldOpenInExistingInstance w args =
         match w.socketFile with
         | some s => if s ≠ "" ∧ w.canConnect s then some s else none
         | none => none) ∧
    (argTruthy args "reuse-window" = false → argTruthy args "new-window" = false →
       ¬(args.length = 1 ∧ (jsGetList args "_").length > 0) →
       shouldOpenInExistingInstance w args = none) := by
  have hbody : shouldOpenInExistingInstance w args = shouldOpenBody w args := by
    rw [shouldOpenInExistingInstance, hipc]
  refine ⟨?_, ?_, ?_⟩
  · intro hflag
    rw [hbody, shouldOpenBody]
    rcases hflag with h | h
    · have h1 : argTruthy args "reuse-window" = true := by
        simp [argTruthy, h, jsTruthy]
      rw [h1]
      cases h2 : argTruthy args "new-window" <;> simp
    · have h1 : argTruthy args "new-window" = true := by
        simp [argTruthy, h, jsTruthy]
      rw [h1]
      cases h2 : argTruthy args "reuse-window" <;> simp
  · intro l hargs hl
    subst hargs
    rw [hbody, shouldOpenBody]
    simp [argTruthy, jsGet, assocLookup, jsGetList, List.length_pos, hl]
  · intro h1 h2 h3
    rw [hbody, shouldOpenBody, h1, h2]
    simp [h3]

/-- C2, witness: the three behaviours at the spec's concrete examples — a
pure-positional record with a live socket redirects, the same record with a
dead socket does not, and `reuse-window` returns the reference even though
the probe would fail. -/
theorem C2_witness :
    shouldOpenInExistingInstance
      ⟨none, some "/tmp/vscode-ipc", fun _ => true⟩
      [("_", .strList ["foo.txt"])] = some "/tmp/vscode-ipc" ∧
    shouldOpenInExistingInstance
      ⟨none, some "/tmp/vscode-ipc", fun _ => false⟩
      [("_", .strList ["foo.txt"])] = none ∧
    shouldOpenInExistingInstance
      ⟨none, some "/tmp/vscode-ipc", fun _ => false⟩
      [("_", .strList []), ("reuse-window", .bool true)] = some "/tmp/vscode-ipc" := by
  refine ⟨?_, ?_, ?_⟩
  · exact ((C2_shouldOpen ⟨none, some "/tmp/vscode-ipc", fun _ => true⟩
      [("_", .strList ["foo.txt"])] rfl).2.1 ["foo.txt"] rfl
      (by decide)).trans (by decide)
  · exact ((C2_shouldOpen ⟨none, some "/tmp/vscode-ipc", fun _ => false⟩
      [("_", .strList ["foo.txt"])] rfl).2.1 ["foo.txt"] rfl
      (by decide)).trans (by decide)
  · exact (C2_shouldOpen ⟨none, some "/tmp/vscode-ipc", fun _ => false⟩
      [("_", .strList []), ("reuse-window", .bool true)] rfl).1
      (Or.inl (by decide))

/-! ### Config-file validity (C8) -/

/-- C8, counterexample: the YAML document `42` is a bare scalar, yet
`readConfigFile` does not raise the invalid-config error — the source guard
`!config || typeof config === "string"` lets truthy non-string scalars
through (`Object.entries(42)` is empty, so the parse trivially succeeds). -/
theorem C8_counterexample :
    readConfigFile resolveModel "cfg.yaml" (.num 42) =
      .ok [("_", .strList []), ("config", .str "cfg.yaml")] ∧
    readConfigFile resolveModel "cfg.yaml" (.num 42) ≠ .error .invalidConfig := by
  constructor
  · decide
  · decide

/-- C8, amended: `readConfigFile` raises the invalid-config error exactly
when the parsed document is falsy or a string: absent (`null`), the scalar
`false`, the scalar `0`, or any string scalar.  Mappings never raise it (nor
do other scalars such as `true` or non-zero numbers, or sequences). -/
theorem C8_invalid_config_iff (resolve : String → String) (p : String)
    (doc : YamlValue) :
    readConfigFile resolve p doc = .error .invalidConfig ↔
      (doc = .null ∨ doc = .bool false ∨ doc = .num 0 ∨ ∃ s, doc = .str s) := by
  cases doc with
  | null => simp [readConfigFile, yamlTruthy, yamlIsString]
  | bool b =>
    cases b
    · simp [readConfigFile, yamlTruthy, yamlIsString]
    · rw [readConfigFile]
      simp only [yamlTruthy, yamlIsString]
      norm_num
      split <;> simp
  | num n =>
    by_cases hn : n = 0
    · subst hn
      simp [readConfigFile, yamlTruthy, yamlIsString]
    · rw [readConfigFile]
      simp only [yamlTruthy, yamlIsString]
      rw [if_neg (by simp [hn])]
      split <;> simp [hn]
  | str s =>
    simp [readConfigFile, yamlTruthy, yamlIsString]
  | seq items =>
    rw [readConfigFile]
    simp only [yamlTruthy, yamlIsString]
    norm_num
    split <;> simp
  | mapping es =>
    rw [readConfigFile]
    simp only [yamlTruthy, yamlIsString]
    norm_num
    split <;> simp

/-! ### `setDefaults` frame condition (C9) -/

theorem listGet?_append_lt (st : Store) (x : Args) (r : Nat) (h : r < st.length) :
    (st ++ [x]).get? r = st.get? r := by
  induction st generalizing r with
  | nil => simp at h
  | cons a rest ih =>
    cases r with
    | zero => rfl
    | succ r => exact ih r (by simpa using h)

theorem listGet?_set_ne (st : Store) (r' : Nat) (a : Args) (r : Nat) (h : r ≠ r') :
    (st.set r' a).get? r = st.get? r := by
  induction st generalizing r r' with
  | nil => rfl
  | cons b rest ih =>
    cases r' with
    | zero =>
      cases r with
      | zero => exact absurd rfl h
      | succ r => rfl
    | succ r' =>
      cases r with
      | zero => rfl
      | succ r => exact ih r' r (by omega)

theorem storeRead_append_lt (st : Store) (x : Args) (r : Nat) (h : r < st.length) :
    storeRead (st ++ [x]) r = storeRead st r := by
  rw [storeRead, storeRead, listGet?_append_lt st x r h]

theorem storeRead_set_ne (st : Store) (r' : Nat) (a : Args) (r : Nat)
    (h : r ≠ r') : storeRead (st.set r' a) r = storeRead st r := by
  rw [storeRead, storeRead, listGet?_set_ne st r' a r h]

theorem writeField_preserve (st : Store) (a : Nat) (k : String) (v : OptValue)
    (r : Nat) (h : r ≠ a) : storeRead (writeField st a k v) r = storeRead st r := by
  rw [writeField]
  exact storeRead_set_ne st a _ r h

theorem sdUserDataDir_preserve (pd : String) (st : Store) (a : Nat) (r : Nat)
    (h : r ≠ a) : storeRead (sdUserDataDir pd st a) r = storeRead st r := by
  rw [sdUserDataDir]
  split
  · exact writeField_preserve st a _ _ r h
  · rfl

theorem sdExtensionsDir_preserve (st : Store) (a : Nat) (r : Nat)
    (h : r ≠ a) : storeRead (sdExtensionsDir st a) r = storeRead st r := by
  rw [sdExtensionsDir]
  split
  · exact writeField_preserve st a _ _ r h
  · rfl

theorem sdLogFromEnv_preserve (env : Option String) (st : Store) (a : Nat) (r : Nat)
    (h : r ≠ a) : storeRead (sdLogFromEnv env st a) r = storeRead st r := by
  rw [sdLogFromEnv]
  split
  · exact writeField_preserve st a _ _ r h
  · split
    · exact writeField_preserve st a _ _ r h
    · rfl

theorem sdVerboseBackfill_preserve (st : Store) (a : Nat) (r : Nat)
    (h : r ≠ a) : storeRead (sdVerboseBackfill st a) r = storeRead st r := by
  rw [sdVerboseBackfill]
  split <;> first
    | exact writeField_preserve st a _ _ r h
    | rfl

/-- C9: `setDefaults` never mutates its input record.  The call allocates a
fresh record holding a shallow copy (`args = { ...args }`) and writes only
through the fresh reference, so after the call every field of the input
record reads exactly as before — for every heap, input reference and key. -/
theorem C9_setDefaults_no_mutation (pathsData : String)
    (envLogLevel : Option String) (st : Store) (input : Nat)
    (h : input < st.length) (k : String) :
    jsGet (storeRead (setDefaults pathsData envLogLevel st input).store input) k =
      jsGet (storeRead st input) k := by
  have hne : input ≠ st.length := by omega
  rw [setDefaults]
  simp only
  rw [sdVerboseBackfill_preserve _ _ _ hne, sdLogFromEnv_preserve _ _ _ _ hne,
    sdExtensionsDir_preserve _ _ _ hne, sdUserDataDir_preserve _ _ _ _ hne,
    storeRead_append_lt st _ input h]

/-- C9, witness: a concrete one-record heap (a record with `log: debug`) is
unchanged by `setDefaults`, while the returned record has received the
defaults. -/
theorem C9_witness :
    jsGet (storeRead (setDefaults "/data" none
        [[("_", .strList []), ("log", .str "debug")]] 0).store 0) "log" =
      some (.str "debug") ∧
    jsGet (storeRead (setDefaults "/data" none
        [[("_", .strList []), ("log", .str "debug")]] 0).store 0) "user-data-dir" =
      none := by
  constructor
  · exact (C9_setDefaults_no_mutation "/data" none
      [[("_", .strList []), ("log", .str "debug")]] 0 (by decide) "log").trans
      (by decide)
  · exact (C9_setDefaults_no_mutation "/data" none
      [[("_", .strList []), ("log", .str "debug")]] 0 (by decide) "user-data-dir").trans
      (by decide)

/-! ### Parse-level claims (C5, C6, C10) -/

theorem jsSet_one (key : String) (v : OptValue) (h : key ≠ "_") (w : OptValue) :
    jsSet [("_", w)] key v = [("_", w), (key, v)] := by
  rw [jsSet, if_neg (Ne.symm h)]
  rfl

theorem handleValued_no_consume (resolve : String → String) (key : String)
    (spec : OptionSpec) (rest : List String) (args : Args)
    (hrest : rest = [] ∨
      ∃ next rest2, rest = next :: rest2 ∧ (next = "" ∨ headDash next = true)) :
    handleValued resolve key spec none rest args =
      (absentValue key spec none args).map (fun a => (a, rest)) := by
  rcases hrest with h | ⟨next, rest2, hr, hcase⟩
  · subst h
    rfl
  · subst hr
    rw [handleValued, if_neg]
    rcases hcase with h | h
    · simp [h]
    · simp [h]

/-- C5: for every `Number`-typed option, an inline captured value is stored
as its `parseInt` base-10 interpretation, and the parse fails with the
invalid-number error exactly when `parseInt` yields `NaN` (the JavaScript
notion of "not numeric": no digit after optional whitespace and sign). -/
theorem C5_number_option (resolve : String → String) (cfg : Bool) (key v : String)
    (spec : OptionSpec) (hk : lookupOption key = some spec)
    (hn : spec.kind = .number) (hv : v ≠ "") (hveq : '=' ∉ v.data) :
    parse resolve ["--" ++ key ++ "=" ++ v] cfg =
      match jsParseInt v with
      | some n => .ok [("_", .strList []), (key, .num n)]
      | none => .error (.invalidNumber key) := by
  obtain ⟨hnp, hpath, hnu⟩ := catalog_number_shape key spec hk hn
  rw [parse]
  simp only [List.length_cons, List.length_nil]
  rw [parseLoop_long_inline resolve cfg 0 key v spec [] emptyArgs hk (by simp [hnp])]
  rw [if_neg (by simp [hn])]
  rw [takeNonEq_all v.data hveq, mk_data]
  rw [handleValued, if_neg hv]
  rw [storeValued, if_neg (by simp [hn])]
  rw [storeTyped.eq_def]
  simp only [hpath, Bool.false_eq_true, if_false, hn]
  cases hj : jsParseInt v with
  | some n =>
    simp only [hj, Except.map, emptyArgs]
    rw [jsSet_one key (.num n) hnu]
    rfl
  | none =>
    simp only [hj, Except.map]

/-- C5, witness: `--port=abc` fails with the invalid-number error;
`--port=8080` stores the integer 8080. -/
theorem C5_witness :
    parse resolveModel ["--port=abc"] false = .error (.invalidNumber "port") ∧
    parse resolveModel ["--port=8080"] false =
      .ok [("_", .strList []), ("port", .num 8080)] := by
  constructor
  · have h := C5_number_option resolveModel false "port" "abc"
      ⟨.number, none, false⟩ rfl rfl (by decide) (by decide)
    have htok : ("--" ++ "port" ++ "=" ++ "abc" : String) = "--port=abc" := by decide
    rw [htok] at h
    exact h.trans (by decide)
  · have h := C5_number_option resolveModel false "port" "8080"
      ⟨.number, none, false⟩ rfl rfl (by decide) (by decide)
    have htok : ("--" ++ "port" ++ "=" ++ "8080" : String) = "--port=8080" := by decide
    rw [htok] at h
    exact h.trans (by decide)

theorem parseLoop_long_bare_pw (resolve : String → String) (fuel : Nat)
    (key : String) (spec : OptionSpec) (rest : List String) (args : Args)
    (hk : lookupOption key = some spec) (hkey : key = "password") :
    parseLoop resolve false (fuel + 1) (("--" ++ key) :: rest) false args =
      .error .passwordOutsideConfig := by
  obtain ⟨hne, hhd, heq⟩ := catalog_key_shape key spec hk
  have hsep : ("--" ++ key) ≠ "--" := by
    intro h
    have := congrArg String.data h
    rw [long_tok_data] at this
    simp at this
    exact hne this
  have hdash : headDash ("--" ++ key) = true := by
    simp [headDash, long_tok_data]
  rw [parseLoop]
  simp only [Bool.false_eq_true, if_false, hsep, hdash, if_true,
    tokenKeyValue_long_bare key heq, hk]
  rw [if_pos ⟨hkey, trivial⟩]

/-- C6, counterexample: `--password` with no following token is a non-boolean
option token with an absent value, yet outside config-file context the parse
fails with the dedicated password-restriction error, not the missing-value
error the claim names. -/
theorem C6_counterexample :
    parse resolveModel ["--password"] false = .error .passwordOutsideConfig ∧
    ParseError.passwordOutsideConfig ≠ .missingValue "password" := by
  constructor
  · decide
  · decide

/-- C6, amended: for a non-boolean option token with no inline value, when
the following token starts with `-` or is absent (or empty), that token is
never consumed: an `OptionalString` option stores the present-without-payload
marker and parsing continues with the following tokens untouched; any other
non-boolean option fails with the missing-value error — except `--password`
outside config-file context, which fails with its dedicated restriction error
before any value handling. -/
theorem C6_no_value_consumption (resolve : String → String) (cfg : Bool)
    (fuel : Nat) (key : String) (spec : OptionSpec) (rest : List String)
    (args : Args) (hk : lookupOption key = some spec) (hb : spec.kind ≠ .boolean)
    (hrest : rest = [] ∨
      ∃ next rest2, rest = next :: rest2 ∧ (next = "" ∨ headDash next = true)) :
    (spec.kind = .optionalString → ¬(key = "password" ∧ cfg = false) →
      parseLoop resolve cfg (fuel + 1) (("--" ++ key) :: rest) false args =
        parseLoop resolve cfg fuel rest false (jsSet args key (.optStr none))) ∧
    (spec.kind ≠ .optionalString → ¬(key = "password" ∧ cfg = false) →
      parseLoop resolve cfg (fuel + 1) (("--" ++ key) :: rest) false args =
        .error (.missingValue key)) ∧
    (key = "password" → cfg = false →
      parseLoop resolve cfg (fuel + 1) (("--" ++ key) :: rest) false args =
        .error .passwordOutsideConfig) := by
  refine ⟨?_, ?_, ?_⟩
  · intro hopt hpw
    rw [parseLoop_long_bare resolve cfg fuel key spec rest args hk hpw]
    rw [if_neg hb, handleValued_no_consume resolve key spec rest args hrest]
    rw [absentValue, if_pos hopt]
    rfl
  · intro hopt hpw
    rw [parseLoop_long_bare resolve cfg fuel key spec rest args hk hpw]
    rw [if_neg hb, handleValued_no_consume resolve key spec rest args hrest]
    rw [absentValue, if_neg hopt]
    rfl
  · intro hkey hcfg
    subst hcfg
    exact parseLoop_long_bare_pw resolve fuel key spec rest args hk hkey

/-- C6, witness: `--cert --cert-host=x` leaves `cert` present without
payload and does not consume the following option token. -/
theorem C6_witness :
    parse resolveModel ["--cert", "--cert-host=x"] false =
      .ok [("_", .strList []), ("cert", .optStr none), ("cert-host", .str "x")] := by
  have h := (C6_no_value_consumption resolveModel false 1 "cert"
    ⟨.optionalString, none, true⟩ ["--cert-host=x"] [("_", .strList [])]
    rfl (by decide)
    (Or.inr ⟨"--cert-host=x", [], rfl, Or.inr (by decide)⟩)).1 rfl (by decide)
  have htok : ("--" ++ "cert" : String) = "--cert" := by decide
  rw [htok] at h
  rw [parse]
  exact h.trans (by decide)

/-- C10: a boolean option stores `true` whenever its flag token appears, even
with an inline `=value` (which is discarded unread); consequently a config
file mapping a boolean option to `false` synthesizes `--key=false` and still
sets the option to `true` in the resulting record. -/
theorem C10_boolean_sets_true (resolve : String → String) (cfg : Bool)
    (key v : String) (spec : OptionSpec) (hk : lookupOption key = some spec)
    (hb : spec.kind = .boolean) (configPath : String) :
    parse resolve ["--" ++ key ++ "=" ++ v] cfg =
      .ok [("_", .strList []), (key, .bool true)] ∧
    readConfigFile resolve configPath (.mapping [(key, .bool false)]) =
      .ok [("_", .strList []), (key, .bool true), ("config", .str configPath)] := by
  obtain ⟨hnp, hnc, hnu⟩ := catalog_boolean_not_password key spec hk hb
  have hmain : ∀ cfg' v', parse resolve ["--" ++ key ++ "=" ++ v'] cfg' =
      .ok [("_", .strList []), (key, .bool true)] := by
    intro cfg' v'
    rw [parse]
    simp only [List.length_cons, List.length_nil]
    rw [parseLoop_long_inline resolve cfg' 0 key v' spec [] emptyArgs hk
      (by simp [hnp])]
    rw [if_pos hb]
    simp only [emptyArgs]
    rw [jsSet_one key (.bool true) hnu]
    rfl
  refine ⟨hmain cfg v, ?_⟩
  rw [readConfigFile]
  rw [if_neg (by simp [yamlTruthy, yamlIsString])]
  have hentry : (yamlEntries (.mapping [(key, .bool false)])).map entryToken =
      ["--" ++ key ++ "=" ++ "false"] := by
    simp [yamlEntries, entryToken, scalarToString]
  rw [hentry, hmain true "false"]
  show Except.ok (jsSet [("_", OptValue.strList []), (key, OptValue.bool true)]
    "config" (OptValue.str configPath)) = _
  rw [jsSet_fresh _ "config" _ (by simp [hnc])]
  simp

/-- C10, witness: `--json=false` sets `json` to `true`, and a config file
mapping `json: false` still yields `json: true` plus the stored config
path. -/
theorem C10_witness :
    parse resolveModel ["--json=false"] false =
      .ok [("_", .strList []), ("json", .bool true)] ∧
    readConfigFile resolveModel "cfg.yaml" (.mapping [("json", .bool false)]) =
      .ok [("_", .strList []), ("json", .bool true), ("config", .str "cfg.yaml")] := by
  have h := C10_boolean_sets_true resolveModel false "json" "false"
    ⟨.boolean, none, false⟩ rfl rfl "cfg.yaml"
  constructor
  · have htok : ("--" ++ "json" ++ "=" ++ "false" : String) = "--json=false" := by decide
    rw [htok] at h
    exact h.1
  · exact h.2

/-! ### Well-formedness plumbing for the round-trip property (C3) -/

theorem pwflag_true (key : String) (cfg : Bool) (h : key = "password" → cfg = true) :
    (decide (key ≠ "password") || cfg) = true := by
  by_cases hk : key = "password"
  · simp [hk, h hk]
  · simp [hk]

theorem fieldsOk_cons_iff (resolve : String → String) (cfg : Bool) (k : String)
    (v : OptValue) (rest : Args) :
    fieldsOk resolve cfg ((k, v) :: rest) = true ↔
      (k ≠ "_" ∧ (∀ p ∈ rest, p.1 ≠ k) ∧ valueOkCore resolve cfg k v = true ∧
        fieldsOk resolve cfg rest = true) := by
  rw [fieldsOk]
  simp only [Bool.and_eq_true, decide_eq_true_eq, List.all_eq_true]
  tauto

theorem wf_shape (resolve : String → String) (cfg : Bool) (args : Args)
    (h : wfRecord resolve cfg args = true) :
    ∃ pos fields, args = ("_", .strList pos) :: fields ∧
      fieldsOk resolve cfg fields = true := by
  cases args with
  | nil => simp [wfRecord] at h
  | cons p fields =>
    obtain ⟨k, v⟩ := p
    rw [wfRecord] at h
    simp only [Bool.and_eq_true, decide_eq_true_eq] at h
    obtain ⟨⟨hk, hv⟩, hf⟩ := h
    subst hk
    cases v with
    | strList pos => exact ⟨pos, fields, rfl, hf⟩
    | bool b => simp [isStrListVal] at hv
    | str s => simp [isStrListVal] at hv
    | num n => simp [isStrListVal] at hv
    | optStr o => simp [isStrListVal] at hv

theorem wf_of_shape (resolve : String → String) (cfg : Bool) (pos : List String)
    (fields : Args) (hf : fieldsOk resolve cfg fields = true) :
    wfRecord resolve cfg (("_", .strList pos) :: fields) = true := by
  rw [wfRecord]
  simp [hf, isStrListVal]

theorem wf_pushPos (resolve : String → String) (cfg : Bool) (args : Args)
    (s : String) (h : wfRecord resolve cfg args = true) :
    wfRecord resolve cfg (pushPos args s) = true := by
  obtain ⟨pos, fields, hsh, hf⟩ := wf_shape resolve cfg args h
  subst hsh
  rw [pushPos_head]
  exact wf_of_shape resolve cfg _ fields hf

theorem jsSet_forall_keys {P : String → Prop} (a : Args) (k : String) (v : OptValue)
    (ha : ∀ p ∈ a, P p.1) (hk : P k) : ∀ p ∈ jsSet a k v, P p.1 := by
  induction a with
  | nil =>
    intro p hp
    simp only [jsSet, List.mem_singleton] at hp
    rw [hp]
    exact hk
  | cons q rest ih =>
    obtain ⟨k', v'⟩ := q
    intro p hp
    rw [jsSet] at hp
    by_cases he : k' = k
    · rw [if_pos he] at hp
      rcases List.mem_cons.mp hp with h | h
      · rw [h]
        exact ha (k', v') (List.mem_cons_self _ _)
      · exact ha p (List.mem_cons_of_mem _ h)
    · rw [if_neg he] at hp
      rcases List.mem_cons.mp hp with h | h
      · rw [h]
        exact ha (k', v') (List.mem_cons_self _ _)
      · exact ih (fun q hq => ha q (List.mem_cons_of_mem _ hq)) p h

theorem fieldsOk_jsSet (resolve : String → String) (cfg : Bool) (fields : Args)
    (k : String) (v : OptValue) (hne : k ≠ "_")
    (hv : valueOkCore resolve cfg k v = true)
    (hf : fieldsOk resolve cfg fields = true) :
    fieldsOk resolve cfg (jsSet fields k v) = true := by
  induction fields with
  | nil =>
    rw [jsSet]
    rw [fieldsOk_cons_iff]
    exact ⟨hne, by simp, hv, rfl⟩
  | cons p rest ih =>
    obtain ⟨k', v'⟩ := p
    rw [fieldsOk_cons_iff] at hf
    obtain ⟨hk'ne, hdist, hvok, hrest⟩ := hf
    rw [jsSet]
    by_cases he : k' = k
    · rw [if_pos he]
      rw [fieldsOk_cons_iff]
      subst he
      exact ⟨hk'ne, hdist, hv, hrest⟩
    · rw [if_neg he]
      rw [fieldsOk_cons_iff]
      refine ⟨hk'ne, ?_, hvok, ih hrest⟩
      exact jsSet_forall_keys (P := fun x => x ≠ k') rest k v hdist
        (fun hc => he hc.symm)

theorem wf_jsSet (resolve : String → String) (cfg : Bool) (args : Args)
    (k : String) (v : OptValue) (h : wfRecord resolve cfg args = true)
    (hcase : (k = "_" → ∃ l, v = .strList l) ∧
      (k ≠ "_" → valueOkCore resolve cfg k v = true)) :
    wfRecord resolve cfg (jsSet args k v) = true := by
  obtain ⟨pos, fields, hsh, hf⟩ := wf_shape resolve cfg args h
  subst hsh
  by_cases hk : k = "_"
  · subst hk
    obtain ⟨l, hl⟩ := hcase.1 rfl
    subst hl
    rw [jsSet, if_pos rfl]
    exact wf_of_shape resolve cfg l fields hf
  · rw [jsSet, if_neg (fun he => hk he.symm)]
    exact wf_of_shape resolve cfg pos _
      (fieldsOk_jsSet resolve cfg fields k v hk (hcase.2 hk) hf)

theorem fieldsOk_lookup (resolve : String → String) (cfg : Bool) (fields : Args)
    (k : String) (v : OptValue) (hf : fieldsOk resolve cfg fields = true)
    (hg : assocLookup fields k = some v) :
    valueOkCore resolve cfg k v = true := by
  induction fields with
  | nil => simp [assocLookup] at hg
  | cons p rest ih =>
    obtain ⟨k', v'⟩ := p
    rw [fieldsOk_cons_iff] at hf
    obtain ⟨hk'ne, hdist, hvok, hrest⟩ := hf
    rw [assocLookup] at hg
    by_cases he : k' = k
    · rw [if_pos he] at hg
      cases hg
      rw [← he]
      exact hvok
    · rw [if_neg he] at hg
      exact ih hrest hg

theorem wf_jsGet (resolve : String → String) (cfg : Bool) (args : Args)
    (k : String) (v : OptValue) (h : wfRecord resolve cfg args = true)
    (hk : k ≠ "_") (hg : jsGet args k = some v) :
    valueOkCore resolve cfg k v = true := by
  obtain ⟨pos, fields, hsh, hf⟩ := wf_shape resolve cfg args h
  subst hsh
  rw [jsGet_cons, if_neg (fun he => hk he.symm)] at hg
  exact fieldsOk_lookup resolve cfg fields k v hf hg

theorem key_underscore_kind (key : String) (spec : OptionSpec)
    (hk : lookupOption key = some spec) (he : key = "_") :
    spec.kind = .strList := by
  subst he
  have : lookupOption "_" = some ⟨.strList, none, false⟩ := rfl
  rw [this] at hk
  cases hk
  rfl

theorem resolved_facts (resolve : String → String)
    (hid : ∀ s, resolve (resolve s) = resolve s) (hne : ∀ s, resolve s ≠ "")
    (spec : OptionSpec) (v : String) (hv : v ≠ "") :
    (if spec.isPath then resolve v else v) ≠ "" ∧
    pathOk resolve spec.isPath (if spec.isPath then resolve v else v) = true := by
  cases hp : spec.isPath
  · simp [pathOk, hv]
  · simp [pathOk, hne v, hid v]

theorem valueOkCore_str (resolve : String → String) (cfg : Bool) (key : String)
    (spec : OptionSpec) (s : String) (hk : lookupOption key = some spec)
    (hpw : key = "password" → cfg = true) (hkind : spec.kind = .str)
    (hs : s ≠ "") (hp : pathOk resolve spec.isPath s = true) :
    valueOkCore resolve cfg key (.str s) = true := by
  simp only [valueOkCore]
  rw [hk]
  simp [hkind, pwflag_true key cfg hpw, hs, hp]
  tauto

theorem valueOkCore_enum (resolve : String → String) (cfg : Bool) (key : String)
    (spec : OptionSpec) (s : String) (values : List String)
    (hk : lookupOption key = some spec) (hpw : key = "password" → cfg = true)
    (hkind : spec.kind = .enum values) (hmem : s ∈ values)
    (hs : s ≠ "") (hp : pathOk resolve spec.isPath s = true) :
    valueOkCore resolve cfg key (.str s) = true := by
  simp only [valueOkCore]
  rw [hk]
  simp [hkind, pwflag_true key cfg hpw, hs, hp, hmem]
  tauto

theorem valueOkCore_num (resolve : String → String) (cfg : Bool) (key : String)
    (spec : OptionSpec) (n : Int) (hk : lookupOption key = some spec)
    (hpw : key = "password" → cfg = true) (hkind : spec.kind = .number) :
    valueOkCore resolve cfg key (.num n) = true := by
  simp only [valueOkCore]
  rw [hk]
  simp [hkind, pwflag_true key cfg hpw]
  tauto

theorem valueOkCore_bool (resolve : String → String) (cfg : Bool) (key : String)
    (spec : OptionSpec) (hk : lookupOption key = some spec)
    (hpw : key = "password" → cfg = true) (hkind : spec.kind = .boolean) :
    valueOkCore resolve cfg key (.bool true) = true := by
  simp only [valueOkCore]
  rw [hk]
  simp [hkind, pwflag_true key cfg hpw]
  tauto

theorem valueOkCore_optStr_none (resolve : String → String) (cfg : Bool)
    (key : String) (spec : OptionSpec) (hk : lookupOption key = some spec)
    (hpw : key = "password" → cfg = true) (hkind : spec.kind = .optionalString) :
    valueOkCore resolve cfg key (.optStr none) = true := by
  simp only [valueOkCore]
  rw [hk]
  simp [hkind, pwflag_true key cfg hpw]
  tauto

theorem valueOkCore_optStr_some (resolve : String → String) (cfg : Bool)
    (key : String) (spec : OptionSpec) (s : String)
    (hk : lookupOption key = some spec) (hpw : key = "password" → cfg = true)
    (hkind : spec.kind = .optionalString) (hf : s ≠ "false")
    (hp : s = "" ∨ pathOk resolve spec.isPath s = true) :
    valueOkCore resolve cfg key (.optStr (some s)) = true := by
  simp only [valueOkCore]
  rw [hk]
  rcases hp with hp | hp <;>
    simp [hkind, pwflag_true key cfg hpw, hf, hp] <;>
    tauto

theorem valueOkCore_strList (resolve : String → String) (cfg : Bool)
    (key : String) (spec : OptionSpec) (l : List String)
    (hk : lookupOption key = some spec) (hpw : key = "password" → cfg = true)
    (hkind : spec.kind = .strList) (hl : l ≠ [])
    (hall : ∀ s ∈ l, s ≠ "" ∧ pathOk resolve spec.isPath s = true) :
    valueOkCore resolve cfg key (.strList l) = true := by
  simp only [valueOkCore]
  rw [hk]
  simp only [hkind, Bool.and_eq_true, decide_eq_true_eq, List.all_eq_true]
  refine ⟨pwflag_true key cfg hpw, ⟨trivial, hl⟩, ?_⟩
  intro s hs
  simp [(hall s hs).1, (hall s hs).2]

theorem valueOkCore_strList_shape (resolve : String → String) (cfg : Bool)
    (key : String) (spec : OptionSpec) (w : OptValue)
    (hk : lookupOption key = some spec) (hkind : spec.kind = .strList)
    (h : valueOkCore resolve cfg key w = true) : ∃ l, w = .strList l := by
  simp only [valueOkCore] at h
  rw [hk] at h
  cases w with
  | strList l => exact ⟨l, rfl⟩
  | bool b => simp [hkind] at h
  | str s => simp [hkind] at h
  | num n => simp [hkind] at h
  | optStr o => cases o <;> simp [hkind] at h

theorem valueOkCore_strList_elements (resolve : String → String) (cfg : Bool)
    (key : String) (spec : OptionSpec) (l : List String)
    (hk : lookupOption key = some spec)
    (h : valueOkCore resolve cfg key (.strList l) = true) :
    ∀ s ∈ l, s ≠ "" ∧ pathOk resolve spec.isPath s = true := by
  simp only [valueOkCore] at h
  rw [hk] at h
  simp only [Bool.and_eq_true, decide_eq_true_eq, List.all_eq_true] at h
  intro s hs
  have := h.2.2 s hs
  simpa using this

theorem absentValue_wf (resolve : String → String) (cfg : Bool) (key : String)
    (spec : OptionSpec) (v0 : Option String) (args a : Args)
    (hk : lookupOption key = some spec) (hpw : key = "password" → cfg = true)
    (hv0 : v0 = none ∨ v0 = some "") (hwf : wfRecord resolve cfg args = true)
    (h : absentValue key spec v0 args = .ok a) :
    wfRecord resolve cfg a = true := by
  rw [absentValue] at h
  split at h
  · rename_i hopt
    simp only [Except.ok.injEq] at h
    subst h
    have hku : key ≠ "_" := by
      intro he
      rw [key_underscore_kind key spec hk he] at hopt
      cases hopt
    refine wf_jsSet resolve cfg args key _ hwf ⟨fun he => absurd he hku, fun _ => ?_⟩
    rcases hv0 with h0 | h0 <;> subst h0
    · exact valueOkCore_optStr_none resolve cfg key spec hk hpw hopt
    · exact valueOkCore_optStr_some resolve cfg key spec "" hk hpw hopt
        (by decide) (Or.inl rfl)
  · exact absurd h (by simp)

theorem exceptMap_pair_ok (r : Except ParseError Args) (rest : List String)
    (a : Args) (rest' : List String)
    (h : (r.map fun x => (x, rest)) = .ok (a, rest')) :
    rest' = rest ∧ r = .ok a := by
  cases r with
  | ok x =>
    simp only [Except.map, Except.ok.injEq, Prod.mk.injEq] at h
    exact ⟨h.2.symm, by rw [h.1]⟩
  | error e => simp [Except.map] at h

theorem storeValued_wf (resolve : String → String) (cfg : Bool) (key : String)
    (spec : OptionSpec) (v : String) (args a : Args)
    (hid : ∀ s, resolve (resolve s) = resolve s)
    (hne : ∀ s, resolve s ≠ "") (hfa : ∀ s, resolve s ≠ "false")
    (hk : lookupOption key = some spec) (hb : spec.kind ≠ .boolean)
    (hpw : key = "password" → cfg = true) (hv : v ≠ "")
    (hwf : wfRecord resolve cfg args = true)
    (h : storeValued resolve key spec v args = .ok a) :
    wfRecord resolve cfg a = true := by
  rw [storeValued] at h
  split at h
  · simp only [Except.ok.injEq] at h
    subst h
    exact hwf
  · rename_i hskip
    obtain ⟨hvne, hvpath⟩ := resolved_facts resolve hid hne spec v hv
    rw [storeTyped.eq_def] at h
    set v' := if spec.isPath then resolve v else v with hvdef
    cases hkind : spec.kind with
    | boolean => exact absurd hkind hb
    | str =>
      simp only [hkind, Except.ok.injEq] at h
      subst h
      have hku : key ≠ "_" := by
        intro he
        rw [key_underscore_kind key spec hk he] at hkind
        cases hkind
      exact wf_jsSet resolve cfg args key _ hwf
        ⟨fun he => absurd he hku, fun _ =>
          valueOkCore_str resolve cfg key spec _ hk hpw hkind hvne hvpath⟩
    | strList =>
      simp only [hkind, Except.ok.injEq] at h
      subst h
      refine wf_jsSet resolve cfg args key _ hwf ⟨fun _ => ⟨_, rfl⟩, fun hku => ?_⟩
      refine valueOkCore_strList resolve cfg key spec _ hk hpw hkind (by simp) ?_
      intro s hs
      rcases List.mem_append.mp hs with hsl | hsl
      · cases hj : jsGet args key with
        | none =>
          rw [jsGetList, hj] at hsl
          simp at hsl
        | some w =>
          have hvok := wf_jsGet resolve cfg args key w hwf hku hj
          obtain ⟨l0, hl0⟩ := valueOkCore_strList_shape resolve cfg key spec w
            hk hkind hvok
          subst hl0
          rw [jsGetList, hj] at hsl
          exact valueOkCore_strList_elements resolve cfg key spec l0 hk hvok s hsl
      · rw [List.mem_singleton] at hsl
        subst hsl
        exact ⟨hvne, hvpath⟩
    | number =>
      simp only [hkind] at h
      have hku : key ≠ "_" := by
        intro he
        rw [key_underscore_kind key spec hk he] at hkind
        cases hkind
      cases hj : jsParseInt v' with
      | some n =>
        simp only [hj, Except.ok.injEq] at h
        subst h
        exact wf_jsSet resolve cfg args key _ hwf
          ⟨fun he => absurd he hku, fun _ =>
            valueOkCore_num resolve cfg key spec n hk hpw hkind⟩
      | none => simp [hj] at h
    | optionalString =>
      simp only [hkind, Except.ok.injEq] at h
      subst h
      have hku : key ≠ "_" := by
        intro he
        rw [key_underscore_kind key spec hk he] at hkind
        cases hkind
      refine wf_jsSet resolve cfg args key _ hwf
        ⟨fun he => absurd he hku, fun _ => ?_⟩
      refine valueOkCore_optStr_some resolve cfg key spec _ hk hpw hkind ?_
        (Or.inr hvpath)
      rw [hvdef]
      cases hp : spec.isPath
      · simp only [Bool.false_eq_true, if_false]
        intro hvf
        exact hskip ⟨hkind, hvf⟩
      · simp only [if_true]
        exact hfa v
    | enum values =>
      simp only [hkind] at h
      split at h
      · rename_i hmem
        simp only [Except.ok.injEq] at h
        subst h
        have hku : key ≠ "_" := by
          intro he
          rw [key_underscore_kind key spec hk he] at hkind
          cases hkind
        exact wf_jsSet resolve cfg args key _ hwf
          ⟨fun he => absurd he hku, fun _ =>
            valueOkCore_enum resolve cfg key spec _ values hk hpw hkind hmem
              hvne hvpath⟩
      · exact absurd h (by simp)

theorem handleValued_wf (resolve : String → String) (cfg : Bool) (key : String)
    (spec : OptionSpec) (value? : Option String) (rest : List String)
    (args a : Args) (rest' : List String)
    (hid : ∀ s, resolve (resolve s) = resolve s)
    (hne : ∀ s, resolve s ≠ "") (hfa : ∀ s, resolve s ≠ "false")
    (hk : lookupOption key = some spec) (hb : spec.kind ≠ .boolean)
    (hpw : key = "password" → cfg = true)
    (hwf : wfRecord resolve cfg args = true)
    (h : handleValued resolve key spec value? rest args = .ok (a, rest')) :
    wfRecord resolve cfg a = true := by
  rw [handleValued.eq_def] at h
  split at h
  · rename_i v
    split at h
    · obtain ⟨_, hok⟩ := exceptMap_pair_ok _ _ _ _ h
      exact absentValue_wf resolve cfg key spec (some "") args a hk hpw
        (Or.inr rfl) hwf hok
    · rename_i hv
      obtain ⟨_, hok⟩ := exceptMap_pair_ok _ _ _ _ h
      exact storeValued_wf resolve cfg key spec v args a hid hne hfa hk hb
        hpw hv hwf hok
  · split at h
    · split at h
      · rename_i hnext
        obtain ⟨_, hok⟩ := exceptMap_pair_ok _ _ _ _ h
        exact storeValued_wf resolve cfg key spec _ args a hid hne hfa hk hb
          hpw hnext.1 hwf hok
      · obtain ⟨_, hok⟩ := exceptMap_pair_ok _ _ _ _ h
        exact absentValue_wf resolve cfg key spec none args a hk hpw
          (Or.inl rfl) hwf hok
    · obtain ⟨_, hok⟩ := exceptMap_pair_ok _ _ _ _ h
      exact absentValue_wf resolve cfg key spec none args a hk hpw
        (Or.inl rfl) hwf hok

theorem handleValued_rest_le (resolve : String → String) (key : String)
    (spec : OptionSpec) (value? : Option String) (rest : List String)
    (args a : Args) (rest' : List String)
    (h : handleValued resolve key spec value? rest args = .ok (a, rest')) :
    rest'.length ≤ rest.length := by
  rw [handleValued.eq_def] at h
  split at h
  · split at h
    · obtain ⟨hr, _⟩ := exceptMap_pair_ok _ _ _ _ h
      rw [hr]
    · obtain ⟨hr, _⟩ := exceptMap_pair_ok _ _ _ _ h
      rw [hr]
  · split at h
    · split at h
      · obtain ⟨hr, _⟩ := exceptMap_pair_ok _ _ _ _ h
        subst hr
        simp only [List.length_cons]
        omega
      · obtain ⟨hr, _⟩ := exceptMap_pair_ok _ _ _ _ h
        rw [hr]
    · obtain ⟨hr, _⟩ := exceptMap_pair_ok _ _ _ _ h
      rw [hr]

theorem wf_emptyArgs (resolve : String → String) (cfg : Bool) :
    wfRecord resolve cfg emptyArgs = true := rfl

theorem parseLoop_wf (resolve : String → String) (cfg : Bool)
    (hid : ∀ s, resolve (resolve s) = resolve s)
    (hne : ∀ s, resolve s ≠ "") (hfa : ∀ s, resolve s ≠ "false") :
    ∀ (fuel : Nat) (toks : List String) (ended : Bool) (args r : Args),
    toks.length ≤ fuel →
    wfRecord resolve cfg args = true →
    parseLoop resolve cfg fuel toks ended args = .ok r →
    wfRecord resolve cfg r = true := by
  intro fuel
  induction fuel with
  | zero =>
    intro toks ended args r hlen hwf h
    cases toks with
    | nil =>
      cases h
      exact hwf
    | cons a t => simp at hlen
  | succ fuel ih =>
    intro toks ended args r hlen hwf h
    cases toks with
    | nil =>
      cases h
      exact hwf
    | cons arg rest =>
      have hlen' : rest.length ≤ fuel := by
        simp only [List.length_cons] at hlen
        omega
      rw [parseLoop] at h
      split at h
      · exact ih rest ended _ r hlen' (wf_pushPos resolve cfg args arg hwf) h
      · split at h
        · exact ih rest true args r hlen' hwf h
        · split at h
          · -- option token
            split at h
            · exact absurd h (by simp)
            · rename_i key hkv
              split at h
              · exact absurd h (by simp)
              · rename_i spec hspec
                split at h
                · exact absurd h (by simp)
                · rename_i hpw
                  have hpw' : key = "password" → cfg = true := by
                    intro hp
                    cases hc : cfg
                    · exact absurd ⟨hp, hc⟩ hpw
                    · rfl
                  split at h
                  · rename_i hbool
                    have hku :=
                      (catalog_boolean_not_password key spec hspec hbool).2.2
                    exact ih rest ended _ r hlen'
                      (wf_jsSet resolve cfg args key _ hwf
                        ⟨fun he => absurd he hku, fun _ =>
                          valueOkCore_bool resolve cfg key spec hspec hpw' hbool⟩)
                      h
                  · rename_i hbool
                    split at h
                    · rename_i a0 rest' hhv
                      have hrl := handleValued_rest_le resolve key spec _ rest
                        args a0 rest' hhv
                      exact ih rest' ended a0 r (le_trans hrl hlen')
                        (handleValued_wf resolve cfg key spec _ rest args a0
                          rest' hid hne hfa hspec hbool hpw' hwf hhv)
                        h
                    · exact absurd h (by simp)
          · exact ih rest ended _ r hlen' (wf_pushPos resolve cfg args arg hwf) h

theorem parse_wf (resolve : String → String) (cfg : Bool)
    (hid : ∀ s, resolve (resolve s) = resolve s)
    (hne : ∀ s, resolve s ≠ "") (hfa : ∀ s, resolve s ≠ "false")
    (argv : List String) (r : Args) (h : parse resolve argv cfg = .ok r) :
    wfRecord resolve cfg r = true := by
  rw [parse] at h
  exact parseLoop_wf resolve cfg hid hne hfa argv.length argv false emptyArgs r
    le_rfl (wf_emptyArgs resolve cfg) h

/-! ### Re-parsing a serialized record (C3) -/

theorem data_ne_empty (s : String) (h : s.data ≠ []) : s ≠ "" :=
  fun hs => h (hs ▸ rfl)

theorem storeFix (resolve : String → String) (spec : OptionSpec) (s : String)
    (hp : pathOk resolve spec.isPath s = true) :
    (if spec.isPath then resolve s else s) = s := by
  cases h : spec.isPath
  · simp
  · rw [pathOk, h] at hp
    simpa using hp

theorem intToStr_facts (n : Int) :
    intToStr n ≠ "" ∧ '=' ∉ (intToStr n).data := by
  obtain ⟨hne, hdig, _⟩ := natDigits_spec n.toNat
  obtain ⟨hne', hdig', _⟩ := natDigits_spec (-n).toNat
  have hnoeq : ∀ m : Nat, '=' ∉ natDigits m := by
    intro m hmem
    obtain ⟨_, hd, _⟩ := natDigits_spec m
    obtain ⟨j, hj, hcj⟩ := hd '=' hmem
    exact (digitChar_facts j hj).2.2.2.2.1 hcj.symm
  rw [intToStr]
  split
  · refine ⟨data_ne_empty _ (by simp), ?_⟩
    intro hmem
    rcases List.mem_cons.mp hmem with h | h
    · cases h
    · exact hnoeq _ h
  · exact ⟨data_ne_empty _ hne, hnoeq _⟩

theorem serialized_head_dash (fields : Args) (rest : List String)
    (hrest : ∃ t ts, rest = t :: ts ∧ headDash t = true) :
    ∃ t ts, serializeFields fields ++ rest = t :: ts ∧ headDash t = true := by
  induction fields with
  | nil => simpa using hrest
  | cons p fs ih =>
    obtain ⟨k, v⟩ := p
    rw [serializeFields]
    by_cases hk : k = "_"
    · simpa [hk] using ih
    · simp only [if_neg hk]
      rw [List.append_assoc]
      obtain ⟨t, ts, hts, hd⟩ := ih
      cases v with
      | bool b =>
        exact ⟨"--" ++ k, serializeFields fs ++ rest,
          by simp [serializeValueTokens], by simp [headDash, long_tok_data]⟩
      | str s =>
        exact ⟨"--" ++ k ++ "=" ++ s, serializeFields fs ++ rest,
          by simp [serializeValueTokens], by simp [headDash, long_tokV_data]⟩
      | num n =>
        exact ⟨"--" ++ k ++ "=" ++ intToStr n, serializeFields fs ++ rest,
          by simp [serializeValueTokens], by simp [headDash, long_tokV_data]⟩
      | strList l =>
        cases l with
        | nil =>
          refine ⟨t, ts, ?_, hd⟩
          simp [serializeValueTokens, hts]
        | cons s l' =>
          exact ⟨"--" ++ k ++ "=" ++ s,
            (l'.map fun s' => "--" ++ k ++ "=" ++ s') ++ (serializeFields fs ++ rest),
            by simp [serializeValueTokens], by simp [headDash, long_tokV_data]⟩
      | optStr o =>
        cases o with
        | none =>
          exact ⟨"--" ++ k, serializeFields fs ++ rest,
            by simp [serializeValueTokens], by simp [headDash, long_tok_data]⟩
        | some s =>
          exact ⟨"--" ++ k ++ "=" ++ s, serializeFields fs ++ rest,
            by simp [serializeValueTokens], by simp [headDash, long_tokV_data]⟩

theorem jsGetList_append_last (A : Args) (key : String) (acc : List String)
    (hfresh : ∀ p ∈ A, p.1 ≠ key) :
    jsGetList (A ++ [(key, .strList acc)]) key = acc := by
  rw [jsGetList, jsGet_append_last A key _ hfresh]

theorem rt_list (resolve : String → String) (cfg : Bool) (key : String)
    (spec : OptionSpec) (hk : lookupOption key = some spec)
    (hkind : spec.kind = .strList) (hpw : ¬(key = "password" ∧ cfg = false)) :
    ∀ (l acc : List String) (fuel : Nat) (rest : List String) (A : Args),
    (∀ p ∈ A, p.1 ≠ key) →
    (∀ s ∈ l, s ≠ "" ∧ '=' ∉ s.data ∧ pathOk resolve spec.isPath s = true) →
    parseLoop resolve cfg (fuel + l.length)
        ((l.map fun s => "--" ++ key ++ "=" ++ s) ++ rest) false
        (A ++ [(key, .strList acc)]) =
      parseLoop resolve cfg fuel rest false (A ++ [(key, .strList (acc ++ l))]) := by
  intro l
  induction l with
  | nil =>
    intro acc fuel rest A hfresh hall
    simp
  | cons s l' ih =>
    intro acc fuel rest A hfresh hall
    obtain ⟨hs, hseq, hsp⟩ := hall s (List.mem_cons_self _ _)
    have hlen : fuel + (s :: l').length = (fuel + l'.length) + 1 := by
      simp only [List.length_cons]
      omega
    rw [hlen]
    simp only [List.map_cons, List.cons_append]
    refine Eq.trans (parseLoop_long_inline resolve cfg (fuel + l'.length) key s
      spec _ _ hk hpw) ?_
    rw [if_neg (by simp [hkind])]
    rw [takeNonEq_all s.data hseq, mk_data]
    rw [handleValued, if_neg hs]
    rw [storeValued, if_neg (by simp [hkind]), storeFix resolve spec s hsp]
    rw [storeTyped.eq_def]
    simp only [hkind, jsGetList_append_last A key acc hfresh,
      jsSet_append_last A key _ _ hfresh, Except.map]
    rw [ih (acc ++ [s]) fuel rest A hfresh
      (fun s' hs' => hall s' (List.mem_cons_of_mem _ hs'))]
    simp [List.append_assoc]

theorem rt_field (resolve : String → String) (cfg : Bool) (k : String)
    (v : OptValue) (fuel : Nat) (rest : List String) (A : Args)
    (hfresh : ∀ p ∈ A, p.1 ≠ k)
    (hok : valueOkCore resolve cfg k v = true)
    (heqf : valueEqFree v = true)
    (hrest : ∃ t ts, rest = t :: ts ∧ headDash t = true) :
    parseLoop resolve cfg (fuel + (serializeValueTokens k v).length)
        (serializeValueTokens k v ++ rest) false A =
      parseLoop resolve cfg fuel rest false (A ++ [(k, v)]) := by
  simp only [valueOkCore] at hok
  cases hlk : lookupOption k with
  | none =>
    rw [hlk] at hok
    simp at hok
  | some spec =>
    rw [hlk] at hok
    simp only [Bool.and_eq_true, Bool.or_eq_true, decide_eq_true_eq] at hok
    obtain ⟨hpwb, hbody⟩ := hok
    have hpw : ¬(k = "password" ∧ cfg = false) := by
      rcases hpwb with h | h
      · exact fun hc => h hc.1
      · exact fun hc => by rw [hc.2] at h; cases h
    cases v with
    | bool b =>
      simp only [Bool.and_eq_true, decide_eq_true_eq] at hbody
      obtain ⟨hkind, hb⟩ := hbody
      subst hb
      simp only [serializeValueTokens, List.length_cons, List.length_nil,
        List.singleton_append]
      rw [parseLoop_long_bare resolve cfg fuel k spec rest A hlk hpw]
      rw [if_pos hkind, jsSet_fresh A k _ hfresh]
    | str s =>
      simp only [Bool.and_eq_true, decide_eq_true_eq] at hbody
      obtain ⟨⟨hmatch, hsne⟩, hsp⟩ := hbody
      simp only [valueEqFree, eqFreeStr, decide_eq_true_eq] at heqf
      simp only [serializeValueTokens, List.length_cons, List.length_nil,
        List.singleton_append]
      refine Eq.trans (parseLoop_long_inline resolve cfg fuel k s spec _ _
        hlk hpw) ?_
      rw [takeNonEq_all s.data heqf, mk_data]
      cases hkind : spec.kind with
      | str =>
        rw [if_neg (by simp [hkind])]
        rw [handleValued, if_neg hsne]
        rw [storeValued, if_neg (by simp [hkind]), storeFix resolve spec s hsp]
        rw [storeTyped.eq_def]
        simp only [hkind, Except.map, jsSet_fresh A k _ hfresh]
      | enum values =>
        rw [hkind] at hmatch
        simp only [decide_eq_true_eq] at hmatch
        rw [if_neg (by simp [hkind])]
        rw [handleValued, if_neg hsne]
        rw [storeValued, if_neg (by simp [hkind]), storeFix resolve spec s hsp]
        rw [storeTyped.eq_def]
        simp only [hkind, if_pos hmatch, Except.map, jsSet_fresh A k _ hfresh]
      | boolean =>
        rw [hkind] at hmatch
        simp at hmatch
      | strList =>
        rw [hkind] at hmatch
        simp at hmatch
      | number =>
        rw [hkind] at hmatch
        simp at hmatch
      | optionalString =>
        rw [hkind] at hmatch
        simp at hmatch
    | num n =>
      simp only [decide_eq_true_eq] at hbody
      have hkind := hbody
      obtain ⟨hnum1, hpath, hnum3⟩ := catalog_number_shape k spec hlk hkind
      obtain ⟨hine, hieq⟩ := intToStr_facts n
      simp only [serializeValueTokens, List.length_cons, List.length_nil,
        List.singleton_append]
      refine Eq.trans (parseLoop_long_inline resolve cfg fuel k (intToStr n)
        spec _ _ hlk hpw) ?_
      rw [takeNonEq_all (intToStr n).data hieq, mk_data]
      rw [if_neg (by simp [hkind])]
      rw [handleValued, if_neg hine]
      rw [storeValued, if_neg (by simp [hkind])]
      rw [storeTyped.eq_def]
      simp only [hkind, hpath, Bool.false_eq_true, if_false,
        jsParseInt_intToStr, Except.map, jsSet_fresh A k _ hfresh]
    | strList l =>
      simp only [Bool.and_eq_true, decide_eq_true_eq, List.all_eq_true] at hbody
      obtain ⟨⟨hkind, hlne⟩, hall⟩ := hbody
      simp only [valueEqFree, List.all_eq_true, eqFreeStr, decide_eq_true_eq]
        at heqf
      cases l with
      | nil => exact absurd rfl hlne
      | cons s0 l' =>
        obtain ⟨hs0ne, hs0p⟩ := hall s0 (List.mem_cons_self _ _)
        have hs0eq := heqf s0 (List.mem_cons_self _ _)
        simp only [serializeValueTokens, List.map_cons, List.length_cons,
          List.length_map, List.cons_append]
        have hlen : fuel + (l'.length + 1) = (fuel + l'.length) + 1 := by omega
        rw [hlen]
        refine Eq.trans (parseLoop_long_inline resolve cfg (fuel + l'.length)
          k s0 spec _ _ hlk hpw) ?_
        rw [takeNonEq_all s0.data hs0eq, mk_data]
        rw [if_neg (by simp [hkind])]
        rw [handleValued, if_neg hs0ne]
        rw [storeValued, if_neg (by simp [hkind]), storeFix resolve spec s0 hs0p]
        rw [storeTyped.eq_def]
        simp only [hkind, Except.map]
        rw [jsGetList, jsGet_absent A k hfresh]
        simp only [List.nil_append, jsSet_fresh A k _ hfresh]
        refine Eq.trans (rt_list resolve cfg k spec hlk hkind hpw l' [s0] fuel
          rest A hfresh ?_) ?_
        · intro s hs
          exact ⟨(hall s (List.mem_cons_of_mem _ hs)).1,
            heqf s (List.mem_cons_of_mem _ hs),
            (hall s (List.mem_cons_of_mem _ hs)).2⟩
        · simp
    | optStr o =>
      cases o with
      | none =>
        simp only [decide_eq_true_eq] at hbody
        have hkind := hbody
        simp only [serializeValueTokens, List.length_cons, List.length_nil,
          List.singleton_append]
        rw [parseLoop_long_bare resolve cfg fuel k spec rest A hlk hpw]
        rw [if_neg (by simp [hkind])]
        rw [handleValued_no_consume resolve k spec rest A
          (by
            obtain ⟨t, ts, hts, hd⟩ := hrest
            exact Or.inr ⟨t, ts, hts, Or.inr hd⟩)]
        rw [absentValue, if_pos hkind]
        simp only [Except.map, jsSet_fresh A k _ hfresh]
      | some s =>
        simp only [Bool.and_eq_true, Bool.or_eq_true, decide_eq_true_eq] at hbody
        obtain ⟨⟨hkind, hsf⟩, hsor⟩ := hbody
        simp only [valueEqFree, eqFreeStr, decide_eq_true_eq] at heqf
        simp only [serializeValueTokens, List.length_cons, List.length_nil,
          List.singleton_append]
        refine Eq.trans (parseLoop_long_inline resolve cfg fuel k s spec _ _
          hlk hpw) ?_
        rw [takeNonEq_all s.data heqf, mk_data]
        rw [if_neg (by simp [hkind])]
        by_cases hse : s = ""
        · subst hse
          rw [handleValued, if_pos rfl]
          rw [absentValue, if_pos hkind]
          simp only [Except.map, jsSet_fresh A k _ hfresh]
        · have hsp : pathOk resolve spec.isPath s = true := by
            rcases hsor with h | h
            · exact absurd h hse
            · exact h
          rw [handleValued, if_neg hse]
          rw [storeValued, if_neg (fun hc => hsf hc.2),
            storeFix resolve spec s hsp]
          rw [storeTyped.eq_def]
          simp only [hkind, Except.map, jsSet_fresh A k _ hfresh]

theorem fieldsOk_keys (resolve : String → String) (cfg : Bool) (fields : Args)
    (h : fieldsOk resolve cfg fields = true) : ∀ p ∈ fields, p.1 ≠ "_" := by
  induction fields with
  | nil => intro p hp; simp at hp
  | cons q fs ih =>
    obtain ⟨k, v⟩ := q
    rw [fieldsOk_cons_iff] at h
    intro p hp
    rcases List.mem_cons.mp hp with hh | hh
    · rw [hh]
      exact h.1
    · exact ih h.2.2.2 p hh

theorem foldl_pushPos (fields : Args) (acc pos : List String) :
    pos.foldl pushPos (("_", .strList acc) :: fields) =
      ("_", .strList (acc ++ pos)) :: fields := by
  induction pos generalizing acc with
  | nil => simp
  | cons s pos' ih =>
    rw [List.foldl_cons, pushPos_head, ih]
    simp

theorem rt_fields (resolve : String → String) (cfg : Bool) :
    ∀ (fields : Args) (fuel : Nat) (rest : List String) (A : Args),
    (∀ p ∈ fields, ∀ q ∈ A, q.1 ≠ p.1) →
    fieldsOk resolve cfg fields = true →
    (∀ p ∈ fields, valueEqFree p.2 = true) →
    (∃ t ts, rest = t :: ts ∧ headDash t = true) →
    parseLoop resolve cfg (fuel + (serializeFields fields).length)
        (serializeFields fields ++ rest) false A =
      parseLoop resolve cfg fuel rest false (A ++ fields) := by
  intro fields
  induction fields with
  | nil =>
    intro fuel rest A _ _ _ _
    simp [serializeFields]
  | cons p fs ih =>
    obtain ⟨k, v⟩ := p
    intro fuel rest A hfresh hok heqf hrest
    rw [fieldsOk_cons_iff] at hok
    obtain ⟨hku, hdist, hvok, hfs⟩ := hok
    rw [serializeFields, if_neg hku]
    rw [List.append_assoc]
    have hlen : fuel + (serializeValueTokens k v ++ serializeFields fs).length =
        (fuel + (serializeFields fs).length) + (serializeValueTokens k v).length := by
      simp only [List.length_append]
      omega
    rw [hlen]
    refine Eq.trans (rt_field resolve cfg k v
      (fuel + (serializeFields fs).length) (serializeFields fs ++ rest) A
      (fun q hq => hfresh (k, v) (List.mem_cons_self _ _) q hq)
      hvok (heqf (k, v) (List.mem_cons_self _ _))
      (serialized_head_dash fs rest hrest)) ?_
    refine Eq.trans (ih fuel rest (A ++ [(k, v)]) ?_ hfs
      (fun p hp => heqf p (List.mem_cons_of_mem _ hp)) hrest) ?_
    · intro p hp q hq
      rcases List.mem_append.mp hq with h | h
      · exact hfresh p (List.mem_cons_of_mem _ hp) q h
      · rw [List.mem_singleton] at h
        rw [h]
        exact fun hc => hdist p hp hc.symm
    · simp

theorem wf_round_trip (resolve : String → String) (cfg : Bool) (r : Args)
    (hwf : wfRecord resolve cfg r = true) (heqf : recordEqFree r = true) :
    parse resolve (serializeArgs r) cfg = .ok r := by
  obtain ⟨pos, fields, hsh, hf⟩ := wf_shape resolve cfg r hwf
  subst hsh
  rw [recordEqFree, List.all_eq_true] at heqf
  rw [parse, serializeArgs]
  rw [serializeFields, if_pos rfl]
  have hpos : jsGetList (("_", OptValue.strList pos) :: fields) "_" = pos := rfl
  rw [hpos]
  simp only [List.nil_append]
  have hlen : (serializeFields fields ++ "--" :: pos).length =
      (pos.length + 1) + (serializeFields fields).length := by
    simp only [List.length_append, List.length_cons]
    omega
  rw [hlen]
  refine Eq.trans (rt_fields resolve cfg fields (pos.length + 1) ("--" :: pos)
    emptyArgs ?_ hf ?_ ⟨"--", pos, rfl, by decide⟩) ?_
  · intro p hp q hq
    simp only [emptyArgs, List.mem_singleton] at hq
    rw [hq]
    exact fun hc => fieldsOk_keys resolve cfg fields hf p hp hc.symm
  · intro p hp
    exact heqf p (List.mem_cons_of_mem _ hp)
  · rw [parseLoop_sep]
    rw [parseLoop_ended resolve cfg pos pos.length le_rfl]
    rw [show emptyArgs ++ fields = ("_", OptValue.strList []) :: fields from rfl]
    rw [foldl_pushPos fields [] pos]
    rw [List.nil_append]

theorem resolveModel_head (s : String) :
    (resolveModel s).data.head? = some '/' := by
  rw [resolveModel]
  split
  · rename_i l h
    rw [h]
    rfl
  · simp

theorem resolveModel_fix (s : String) (h : s.data.head? = some '/') :
    resolveModel s = s := by
  rw [resolveModel]
  split
  · rfl
  · rename_i hm
    cases hd : s.data with
    | nil =>
      rw [hd] at h
      simp at h
    | cons c l =>
      rw [hd] at h
      simp at h
      exact absurd hd (h ▸ hm l)

theorem resolveModel_idem (s : String) :
    resolveModel (resolveModel s) = resolveModel s :=
  resolveModel_fix _ (resolveModel_head s)

theorem resolveModel_ne (s : String) : resolveModel s ≠ "" := by
  intro h
  have hh := resolveModel_head s
  rw [h] at hh
  exact absurd hh (by decide)

theorem resolveModel_nfalse (s : String) : resolveModel s ≠ "false" := by
  intro h
  have hh := resolveModel_head s
  rw [h] at hh
  exact absurd hh (by decide)

/-- C3, counterexample to the claim as stated: `["--cert-host", "a=b"]`
parses successfully using only known option names, but re-serializing the
resulting record to `--cert-host=a=b` and re-parsing stores `"a"` — the
`split("=", 2)` truncation drops everything after the second `=` — so the
round trip does not yield an equal record. -/
theorem C3_counterexample :
    parse resolveModel ["--cert-host", "a=b"] false =
      .ok [("_", OptValue.strList []), ("cert-host", OptValue.str "a=b")] ∧
    parse resolveModel
        (serializeArgs
          [("_", OptValue.strList []), ("cert-host", OptValue.str "a=b")])
        false =
      .ok [("_", OptValue.strList []), ("cert-host", OptValue.str "a")] := by
  constructor
  · decide
  · decide

/-- C3, amended: for every token sequence that parses successfully (under a
resolver that is idempotent and never yields `""` or `"false"`, as
`path.resolve` is), if no stored string payload of the resulting record
contains `'='`, then re-serializing the record into `--key=value` tokens
(one per scalar, one per list element, booleans as bare `--key`, positionals
after `--`) and parsing again yields the same record. Without the
`'='`-freedom proviso the round trip fails, because `split("=", 2)`
truncates the payload at the second `=`. -/
theorem C3_round_trip (resolve : String → String) (cfg : Bool)
    (hid : ∀ s, resolve (resolve s) = resolve s)
    (hne : ∀ s, resolve s ≠ "") (hfa : ∀ s, resolve s ≠ "false")
    (argv : List String) (r : Args)
    (hparse : parse resolve argv cfg = .ok r)
    (heqf : recordEqFree r = true) :
    parse resolve (serializeArgs r) cfg = .ok r :=
  wf_round_trip resolve cfg r (parse_wf resolve cfg hid hne hfa argv r hparse)
    heqf

/-- C3, witness: `["--host", "h"]` parses to a record whose serialization
`["--host=h", "--"]` re-parses to the identical record. -/
theorem C3_witness :
    parse resolveModel ["--host", "h"] false =
        .ok [("_", OptValue.strList []), ("host", OptValue.str "h")] ∧
    parse resolveModel
        (serializeArgs [("_", OptValue.strList []), ("host", OptValue.str "h")])
        false =
      .ok [("_", OptValue.strList []), ("host", OptValue.str "h")] :=
  ⟨by decide,
   C3_round_trip resolveModel false resolveModel_idem resolveModel_ne
     resolveModel_nfalse ["--host", "h"]
     [("_", OptValue.strList []), ("host", OptValue.str "h")]
     (by decide) (by decide)⟩
